import Mathlib

/-!
Verification development for the `digitalneuron` asset pipeline.

The repository converts an SWC-style neuron trace into a triangle mesh and a
sequence of simplified level-of-detail (LOD) meshes.  This file gives a shallow
embedding of the core of the pipeline:

* `src/asset_pipeline/swc_conversion/neuron.py` — `Node`, `Neuron` (parsing,
  root detection, child lookup, topological traversal);
* `src/asset_pipeline/swc_conversion/mesh_generator.py` —
  `create_segment_frustum` and `generate_mesh_sequential_boolean`;
* `src/asset_pipeline/swc_conversion/mesh_generator_pv.py` — the voxel-size
  derivation and the primitive-building traversal of
  `create_pyvista_primitives` / `generate_mesh_pyvista`;
* `src/asset_pipeline/process_sphere.py` — `simplify_mesh`, `upload_mesh`,
  `process_and_upload`.

Python floats are modelled by real numbers, Python ints by integers.  Calls
into external libraries (trimesh / pyvista primitive constructors, the quadric
decimator, S3 uploads) are modelled as explicit function parameters standing
for the library behaviour; everything written in the repository itself is
translated directly.  Recursion over the node graph, which Python performs
with an unbounded call stack and a shared visited set, is embedded with an
explicit fuel argument; the fuel chosen by the top-level wrappers
(`nodes.length + 1`) is provably sufficient because every nested call marks a
fresh node id as visited first.
-/

namespace DigitalNeuron

/-! ## 3D vectors (numpy 3-vectors) -/

/-- A 3-component real vector, standing for the numpy arrays used by
`mesh_generator.py`. -/
@[ext]
structure V3 where
  x : ℝ
  y : ℝ
  z : ℝ
deriving Inhabited

namespace V3

instance : Zero V3 := ⟨⟨0, 0, 0⟩⟩

instance : Add V3 := ⟨fun a b => ⟨a.x + b.x, a.y + b.y, a.z + b.z⟩⟩

instance : Sub V3 := ⟨fun a b => ⟨a.x - b.x, a.y - b.y, a.z - b.z⟩⟩

instance : Neg V3 := ⟨fun a => ⟨-a.x, -a.y, -a.z⟩⟩

instance : SMul ℝ V3 := ⟨fun r a => ⟨r * a.x, r * a.y, r * a.z⟩⟩

theorem add_def (a b : V3) : a + b = ⟨a.x + b.x, a.y + b.y, a.z + b.z⟩ := rfl

theorem sub_def (a b : V3) : a - b = ⟨a.x - b.x, a.y - b.y, a.z - b.z⟩ := rfl

theorem smul_def (r : ℝ) (a : V3) : r • a = ⟨r * a.x, r * a.y, r * a.z⟩ := rfl

theorem zero_def : (0 : V3) = ⟨0, 0, 0⟩ := rfl

/-- Euclidean dot product (`np.dot`). -/
def dot (a b : V3) : ℝ := a.x * b.x + a.y * b.y + a.z * b.z

/-- Cross product (`np.cross`). -/
def cross (a b : V3) : V3 :=
  ⟨a.y * b.z - a.z * b.y, a.z * b.x - a.x * b.z, a.x * b.y - a.y * b.x⟩

/-- Euclidean norm (`np.linalg.norm`). -/
noncomputable def norm (a : V3) : ℝ := Real.sqrt (dot a a)

theorem dot_comm (a b : V3) : dot a b = dot b a := by
  simp only [dot]; ring

theorem dot_self_nonneg (a : V3) : 0 ≤ dot a a := by
  simp only [dot]
  nlinarith [sq_nonneg a.x, sq_nonneg a.y, sq_nonneg a.z]

theorem dot_self_eq_norm_sq (a : V3) : dot a a = norm a ^ 2 := by
  rw [norm, Real.sq_sqrt (dot_self_nonneg a)]

theorem norm_nonneg (a : V3) : 0 ≤ norm a := Real.sqrt_nonneg _

/-- The dot product of a vector with any cross product involving it vanishes. -/
theorem dot_cross_self_left (a b : V3) : dot a (cross a b) = 0 := by
  simp only [dot, cross]; ring

theorem dot_cross_self_right (a b : V3) : dot b (cross a b) = 0 := by
  simp only [dot, cross]; ring

/-- A unit-normalised nonzero vector has unit dot square. -/
theorem dot_normalize_self (a : V3) (h : 0 < dot a a) :
    dot ((1 / norm a) • a) ((1 / norm a) • a) = 1 := by
  have hn : norm a ^ 2 = dot a a := (dot_self_eq_norm_sq a).symm
  have hpos : 0 < norm a := by
    have := Real.sqrt_pos.mpr h
    simpa [norm] using this
  simp only [dot, smul_def] at *
  field_simp
  nlinarith [hn]

end V3

/-! ## Triangle meshes

`trimesh.Trimesh` objects are modelled by their vertex buffer and their
triangular face buffer (triples of vertex indices).  `trimesh.util.concatenate`
appends vertex buffers and offsets the face indices of the second mesh; it
performs no deduplication. -/

/-- A triangle mesh: ordered vertex positions plus faces as index triples. -/
structure TriMesh where
  vertices : List V3
  faces : List (ℕ × ℕ × ℕ)
deriving Inhabited

/-- Model of `trimesh.util.concatenate m1 m2`: vertex buffers are appended and
the face indices of the second mesh are offset by the first vertex count. -/
def concatTM (m1 m2 : TriMesh) : TriMesh :=
  { vertices := m1.vertices ++ m2.vertices
    faces := m1.faces ++ m2.faces.map
      (fun f => (f.1 + m1.vertices.length, f.2.1 + m1.vertices.length,
                 f.2.2 + m1.vertices.length)) }

theorem concatTM_vertices_length (m1 m2 : TriMesh) :
    (concatTM m1 m2).vertices.length = m1.vertices.length + m2.vertices.length := by
  simp [concatTM]

/-! ## The SWC data model (`neuron.py`) -/

/-- `Node.__init__` in `neuron.py`: one SWC record. -/
structure Node where
  id : ℤ
  type_id : ℤ
  x : ℝ
  y : ℝ
  z : ℝ
  r : ℝ
  parent_id : ℤ
deriving Inhabited

/-- The part of a `Neuron` object that the mesh generators read:
`self.nodes` and `self.root_node`. -/
structure Neuron where
  nodes : List Node
  root_node : Node

/-- `Neuron.get_children`: the nodes whose `parent_id` equals the given node's
id, in stored order. -/
def get_children (nodes : List Node) (node : Node) : List Node :=
  nodes.filter (fun n => n.parent_id = node.id)

/-- Position of a node as a 3-vector. -/
def Node.pos (n : Node) : V3 := ⟨n.x, n.y, n.z⟩

/-! ## SWC parsing (`Neuron.load_nodes`, `Neuron.get_root`, `Neuron.__init__`)

Lines of the input file are modelled as lists of characters.  `str.strip` and
`str.split` (split on runs of whitespace, discarding empty tokens) are embedded
directly.  The numeric conversions `int(...)` / `float(...)` applied to the
seven fields are external to the parsing logic under scrutiny; they are passed
in as total conversion functions. -/

/-- Python whitespace characters recognised by `str.strip` / `str.split`
(ASCII subset). -/
def isPySpace (c : Char) : Bool :=
  c = ' ' || c = '\t' || c = '\n' || c = '\r' || c = '\x0b' || c = '\x0c'

/-- `str.strip()`: drop leading and trailing whitespace. -/
def pyStrip (l : List Char) : List Char :=
  ((l.dropWhile isPySpace).reverse.dropWhile isPySpace).reverse

/-- Helper for `pySplit`: accumulates the current token (reversed). -/
def pySplitAux : List Char → List Char → List (List Char)
  | [], cur => if cur.isEmpty then [] else [cur.reverse]
  | c :: rest, cur =>
    if isPySpace c then
      if cur.isEmpty then pySplitAux rest [] else cur.reverse :: pySplitAux rest []
    else
      pySplitAux rest (c :: cur)

/-- `str.split()` with no arguments: split on whitespace runs, no empty
tokens. -/
def pySplit (l : List Char) : List (List Char) := pySplitAux l []

/-- `str.startswith("#")`. -/
def startsWithHash : List Char → Bool
  | [] => false
  | c :: _ => c = '#'

/-- The fatal errors raised by `Neuron`; both are `ValueError`s in Python and
are told apart by their message.  `malformedRecord` carries the offending
(stripped) line, `invalidTopology` a description of the topology violation. -/
inductive SwcError where
  | malformedRecord (line : List Char)
  | invalidTopology (msg : List Char)
deriving DecidableEq

/-- Builds a `Node` from the seven whitespace-separated fields of a record
line, via the supplied `int`/`float` conversions. -/
def nodeOfParts (toI : List Char → ℤ) (toF : List Char → ℝ)
    (parts : List (List Char)) : Node :=
  { id := toI (parts.getD 0 [])
    type_id := toI (parts.getD 1 [])
    x := toF (parts.getD 2 [])
    y := toF (parts.getD 3 [])
    z := toF (parts.getD 4 [])
    r := toF (parts.getD 5 [])
    parent_id := toI (parts.getD 6 []) }

/-- `Neuron.load_nodes`: strip each line, skip lines starting with `#`, demand
exactly 7 fields on every other line (raising on the first offender), and
collect the parsed nodes in order. -/
def load_nodes (toI : List Char → ℤ) (toF : List Char → ℝ) :
    List (List Char) → Except SwcError (List Node)
  | [] => .ok []
  | line :: rest =>
    let s := pyStrip line
    if startsWithHash s then
      load_nodes toI toF rest
    else
      let parts := pySplit s
      if parts.length = 7 then do
        let ns ← load_nodes toI toF rest
        .ok (nodeOfParts toI toF parts :: ns)
      else
        .error (.malformedRecord s)

/-- The `root_nodes` list computed by `Neuron.get_root`: the nodes whose
`parent_id` is not the id of any node. -/
def root_nodes_of (nodes : List Node) : List Node :=
  nodes.filter (fun n => ¬ n.parent_id ∈ nodes.map Node.id)

/-- `Neuron.get_root`: unless exactly one node has an unresolvable
`parent_id`, raise; otherwise return that node. -/
def get_root (nodes : List Node) : Except SwcError Node :=
  match root_nodes_of nodes with
  | [r] => .ok r
  | _ => .error (.invalidTopology ("Root node count != 1".toList))

/-- `Neuron.__init__` given the lines of the SWC file: load the nodes, find
the root, then reject duplicate ids (`len(node_ids) != len(set(node_ids))`). -/
def mkNeuron (toI : List Char → ℤ) (toF : List Char → ℝ)
    (lines : List (List Char)) : Except SwcError Neuron := do
  let nodes ← load_nodes toI toF lines
  let root ← get_root nodes
  let node_ids := nodes.map Node.id
  if node_ids.length ≠ node_ids.dedup.length then
    .error (.invalidTopology ("Nodes do not have unique IDs.".toList))
  else
    .ok ⟨nodes, root⟩

/-! ### Lemmas about the parser -/

theorem load_nodes_nil (toI : List Char → ℤ) (toF : List Char → ℝ) :
    load_nodes toI toF [] = .ok [] := rfl

theorem load_nodes_cons_skip (toI : List Char → ℤ) (toF : List Char → ℝ)
    (line : List Char) (rest : List (List Char))
    (h : startsWithHash (pyStrip line) = true) :
    load_nodes toI toF (line :: rest) = load_nodes toI toF rest := by
  simp [load_nodes, h]

theorem load_nodes_cons_bad (toI : List Char → ℤ) (toF : List Char → ℝ)
    (line : List Char) (rest : List (List Char))
    (h1 : startsWithHash (pyStrip line) = false)
    (h2 : (pySplit (pyStrip line)).length ≠ 7) :
    load_nodes toI toF (line :: rest) = .error (.malformedRecord (pyStrip line)) := by
  simp [load_nodes, h1, h2]

theorem load_nodes_cons_good (toI : List Char → ℤ) (toF : List Char → ℝ)
    (line : List Char) (rest : List (List Char))
    (h1 : startsWithHash (pyStrip line) = false)
    (h2 : (pySplit (pyStrip line)).length = 7) :
    load_nodes toI toF (line :: rest) =
      (load_nodes toI toF rest).map
        (fun ns => nodeOfParts toI toF (pySplit (pyStrip line)) :: ns) := by
  rcases h : load_nodes toI toF rest with e | ns <;>
    simp [load_nodes, h1, h2, h, Except.map, Bind.bind, Except.bind]

/-- The first non-comment line with a field count other than 7 aborts
`load_nodes` with a `malformedRecord` error naming that (stripped) line. -/
theorem load_nodes_first_error (toI : List Char → ℤ) (toF : List Char → ℝ) :
    ∀ lines : List (List Char),
      (∃ line ∈ lines, startsWithHash (pyStrip line) = false ∧
        (pySplit (pyStrip line)).length ≠ 7) →
      ∃ bad ∈ lines, startsWithHash (pyStrip bad) = false ∧
        (pySplit (pyStrip bad)).length ≠ 7 ∧
        load_nodes toI toF lines = .error (.malformedRecord (pyStrip bad))
  | [], h => by simp at h
  | line :: rest, h => by
    by_cases hh : startsWithHash (pyStrip line) = true
    · rcases h with ⟨l, hl, hf, h7⟩
      rcases List.mem_cons.mp hl with rfl | hl
      · rw [hh] at hf; cases hf
      · obtain ⟨bad, hbmem, hbf, hb7, hberr⟩ :=
          load_nodes_first_error toI toF rest ⟨l, hl, hf, h7⟩
        exact ⟨bad, List.mem_cons_of_mem _ hbmem, hbf, hb7, by
          rw [load_nodes_cons_skip toI toF line rest hh, hberr]⟩
    · rw [Bool.not_eq_true] at hh
      by_cases h7 : (pySplit (pyStrip line)).length = 7
      · rcases h with ⟨l, hl, hf, hl7⟩
        rcases List.mem_cons.mp hl with rfl | hl
        · exact absurd h7 hl7
        · obtain ⟨bad, hbmem, hbf, hb7, hberr⟩ :=
            load_nodes_first_error toI toF rest ⟨l, hl, hf, hl7⟩
          refine ⟨bad, List.mem_cons_of_mem _ hbmem, hbf, hb7, ?_⟩
          rw [load_nodes_cons_good toI toF line rest hh h7, hberr]
          rfl
      · exact ⟨line, List.mem_cons_self _ _, hh, h7,
          load_nodes_cons_bad toI toF line rest hh h7⟩

theorem mkNeuron_error_of_load (toI : List Char → ℤ) (toF : List Char → ℝ)
    (lines : List (List Char)) (e : SwcError)
    (h : load_nodes toI toF lines = .error e) :
    mkNeuron toI toF lines = .error e := by
  simp [mkNeuron, h, Bind.bind, Except.bind]

theorem pyStrip_eq_nil_of_all_space (line : List Char)
    (h : ∀ c ∈ line, isPySpace c = true) : pyStrip line = [] := by
  have h1 : line.dropWhile isPySpace = [] := List.dropWhile_eq_nil_iff.mpr h
  simp [pyStrip, h1]

theorem length_eq_dedup_iff_nodup (l : List ℤ) :
    l.length = l.dedup.length ↔ l.Nodup := by
  constructor
  · intro h
    have hsub : List.Sublist l.dedup l := l.dedup_sublist
    have : l.dedup = l := hsub.eq_of_length h.symm
    rw [← this]; exact l.nodup_dedup
  · intro h
    rw [List.dedup_eq_self.mpr h]

/-! ### C3, C4, C9 -/

/-- `get_root` either succeeds or fails with the root-count error. -/
theorem get_root_cases (nodes : List Node) :
    (∃ r, get_root nodes = .ok r) ∨
    get_root nodes = .error (.invalidTopology ("Root node count != 1".toList)) := by
  rcases h : root_nodes_of nodes with _ | ⟨r, _ | ⟨r2, t⟩⟩ <;>
    simp [get_root, h]

/-- When the root-candidate count differs from one, `get_root` raises. -/
theorem get_root_error_of_count (nodes : List Node)
    (h : (root_nodes_of nodes).length ≠ 1) :
    get_root nodes = .error (.invalidTopology ("Root node count != 1".toList)) := by
  rcases hr : root_nodes_of nodes with _ | ⟨r, _ | ⟨r2, t⟩⟩
  · simp [get_root, hr]
  · exact absurd (by simp [hr]) h
  · simp [get_root, hr]

/-- C3: a trace violating a topology invariant — duplicate node ids, or a
number of roots (nodes whose `parent_id` is no node's id) different from one —
always makes `Neuron` construction fail with an `invalidTopology` error and
never yields a tree. -/
theorem c3_topology_invariants (toI : List Char → ℤ) (toF : List Char → ℝ)
    (lines : List (List Char)) (nodes : List Node)
    (hload : load_nodes toI toF lines = .ok nodes) :
    (¬ (nodes.map Node.id).Nodup →
      ∃ m, mkNeuron toI toF lines = .error (.invalidTopology m)) ∧
    ((root_nodes_of nodes).length ≠ 1 →
      ∃ m, mkNeuron toI toF lines = .error (.invalidTopology m)) := by
  constructor
  · intro hdup
    have hne : nodes.length ≠ (nodes.map Node.id).dedup.length := by
      intro h
      exact hdup ((length_eq_dedup_iff_nodup _).mp (by simpa using h))
    rcases get_root_cases nodes with ⟨root, hroot⟩ | hroot
    · refine ⟨"Nodes do not have unique IDs.".toList, ?_⟩
      simp [mkNeuron, hload, hroot, hne, Bind.bind, Except.bind]
    · refine ⟨"Root node count != 1".toList, ?_⟩
      simp [mkNeuron, hload, hroot, Bind.bind, Except.bind]
  · intro hroots
    have hroot := get_root_error_of_count nodes hroots
    refine ⟨"Root node count != 1".toList, ?_⟩
    simp [mkNeuron, hload, hroot, Bind.bind, Except.bind]

/-- C4: if any non-comment line of the input does not tokenize into exactly 7
whitespace-separated fields, parsing fails with a `malformedRecord` error whose
payload is the content of an offending line, and no node list (hence no tree)
is ever produced. -/
theorem c4_malformed_record_fatal (toI : List Char → ℤ) (toF : List Char → ℝ)
    (lines : List (List Char))
    (h : ∃ line ∈ lines, startsWithHash (pyStrip line) = false ∧
      (pySplit (pyStrip line)).length ≠ 7) :
    ∃ bad ∈ lines, startsWithHash (pyStrip bad) = false ∧
      (pySplit (pyStrip bad)).length ≠ 7 ∧
      load_nodes toI toF lines = .error (.malformedRecord (pyStrip bad)) ∧
      mkNeuron toI toF lines = .error (.malformedRecord (pyStrip bad)) ∧
      ∀ ns, load_nodes toI toF lines ≠ .ok ns := by
  obtain ⟨bad, hmem, hf, h7, herr⟩ := load_nodes_first_error toI toF lines h
  exact ⟨bad, hmem, hf, h7, herr, mkNeuron_error_of_load toI toF lines _ herr,
    fun ns hok => by rw [herr] at hok; cases hok⟩

/-- C9: a non-comment line that is blank or whitespace-only is not skipped: it
tokenizes into 0 fields and `load_nodes` raises the malformed-record error
(immediately, with payload the empty stripped line, when it is the first line);
only lines whose stripped form starts with `#` are skipped. -/
theorem c9_blank_lines_are_malformed (toI : List Char → ℤ) (toF : List Char → ℝ) :
    (∀ lines : List (List Char), ∀ line ∈ lines,
      (∀ c ∈ line, isPySpace c = true) →
      ∃ bad ∈ lines,
        load_nodes toI toF lines = .error (.malformedRecord (pyStrip bad))) ∧
    (∀ (line : List Char) (rest : List (List Char)),
      (∀ c ∈ line, isPySpace c = true) →
      load_nodes toI toF (line :: rest) = .error (.malformedRecord []) ∧
      (pySplit (pyStrip line)).length = 0) ∧
    (∀ (line : List Char) (rest : List (List Char)),
      startsWithHash (pyStrip line) = true →
      load_nodes toI toF (line :: rest) = load_nodes toI toF rest) := by
  refine ⟨?_, ?_, fun line rest h => load_nodes_cons_skip toI toF line rest h⟩
  · intro lines line hmem hsp
    have hnil : pyStrip line = [] := pyStrip_eq_nil_of_all_space line hsp
    obtain ⟨bad, hb, _, _, herr⟩ := load_nodes_first_error toI toF lines
      ⟨line, hmem, by rw [hnil]; exact ⟨rfl, by simp [pySplit, pySplitAux]⟩⟩
    exact ⟨bad, hb, herr⟩
  · intro line rest hsp
    have hnil : pyStrip line = [] := pyStrip_eq_nil_of_all_space line hsp
    constructor
    · have := load_nodes_cons_bad toI toF line rest
        (by rw [hnil]; rfl) (by rw [hnil]; simp [pySplit, pySplitAux])
      rw [hnil] at this; exact this
    · rw [hnil]; simp [pySplit, pySplitAux]

/-! ### Witness inputs for the parsing theorems -/

/-- A constant stand-in for Python `int(...)` used in witnesses. -/
def toIntW : List Char → ℤ := fun _ => 1

/-- A constant stand-in for Python `float(...)` used in witnesses. -/
def toFloatW : List Char → ℝ := fun _ => 0

/-- A 7-field record line, `1 1 0 0 0 1 5`. -/
def lineW7 : List Char := ['1', ' ', '1', ' ', '0', ' ', '0', ' ', '0', ' ', '1', ' ', '5']

/-- A 6-field record line, `1 1 0 0 0 1`. -/
def lineW6 : List Char := ['1', ' ', '1', ' ', '0', ' ', '0', ' ', '0', ' ', '1']

/-- The node produced from `lineW7` by the witness conversions. -/
def nodeW : Node := ⟨1, 1, 0, 0, 0, 0, 1⟩

theorem c3_topology_invariants_witness :
    load_nodes toIntW toFloatW [lineW7, lineW7] = .ok [nodeW, nodeW] ∧
    ¬ ([nodeW, nodeW].map Node.id).Nodup ∧
    ∃ m, mkNeuron toIntW toFloatW [lineW7, lineW7] = .error (.invalidTopology m) := by
  refine ⟨by rfl, by simp [nodeW], ?_⟩
  exact (c3_topology_invariants toIntW toFloatW [lineW7, lineW7] [nodeW, nodeW]
    (by rfl)).1 (by simp [nodeW])

theorem c4_malformed_record_fatal_witness :
    (startsWithHash (pyStrip lineW6) = false ∧ (pySplit (pyStrip lineW6)).length ≠ 7) ∧
    ∃ bad ∈ [lineW6], startsWithHash (pyStrip bad) = false ∧
      (pySplit (pyStrip bad)).length ≠ 7 ∧
      load_nodes toIntW toFloatW [lineW6] = .error (.malformedRecord (pyStrip bad)) ∧
      mkNeuron toIntW toFloatW [lineW6] = .error (.malformedRecord (pyStrip bad)) ∧
      ∀ ns, load_nodes toIntW toFloatW [lineW6] ≠ .ok ns := by
  refine ⟨⟨by decide, by decide⟩, ?_⟩
  exact c4_malformed_record_fatal toIntW toFloatW [lineW6]
    ⟨lineW6, by simp, by decide, by decide⟩

theorem c9_blank_lines_are_malformed_witness :
    (∀ c ∈ [' ', '\t'], isPySpace c = true) ∧
    load_nodes toIntW toFloatW [[' ', '\t'], lineW7] = .error (.malformedRecord []) := by
  refine ⟨by decide, ?_⟩
  exact (((c9_blank_lines_are_malformed toIntW toFloatW).2.1 [' ', '\t'] [lineW7])
    (by decide)).1

/-! ## The LOD pipeline (`process_sphere.py`)

`simplify_quadric_decimation` is an external trimesh call that either returns
a simplified mesh or raises; it is modelled by a function
`d : TriMesh → ℕ → Option TriMesh`.  `upload_mesh` hands a mesh to S3; the
model records the sequence of `(lod, mesh)` pairs handed to storage.
`sys.exit(1)` is modelled by stopping the run with the abort flag set. -/

/-- `LOD_TARGET_FACES` in `process_sphere.py`. -/
def LOD_TARGET_FACES : List ℕ := [4096, 2048, 1024, 512]

/-- `simplify_mesh`: run the decimator; on an exception, `sys.exit(1)`. -/
def simplify_mesh (d : TriMesh → ℕ → Option TriMesh) (initial_mesh : TriMesh)
    (target_faces : ℕ) : Except Unit TriMesh :=
  match d initial_mesh target_faces with
  | some m => .ok m
  | none => .error ()

/-- The `for lod, target_faces in enumerate(LOD_TARGET_FACES)` loop of
`process_and_upload`: each simplified mesh is uploaded as soon as it is
produced; a decimation failure exits the process, leaving the uploads made so
far in place.  Returns the uploads and whether the run aborted. -/
def lodLoop (d : TriMesh → ℕ → Option TriMesh) (mesh_lod0 : TriMesh) :
    List (ℕ × ℕ) → List (ℕ × TriMesh) → List (ℕ × TriMesh) × Bool
  | [], uploaded => (uploaded, false)
  | (lod, target) :: rest, uploaded =>
    match simplify_mesh d mesh_lod0 target with
    | .error _ => (uploaded, true)
    | .ok m => lodLoop d mesh_lod0 rest (uploaded ++ [(lod, m)])

/-- `process_and_upload` after the LOD-0 mesh has been loaded: LOD 0 is
uploaded first, then each LOD `1..4` in turn. -/
def process_and_upload (d : TriMesh → ℕ → Option TriMesh) (mesh_lod0 : TriMesh) :
    List (ℕ × TriMesh) × Bool :=
  lodLoop d mesh_lod0 (LOD_TARGET_FACES.enum.map (fun p => (p.1 + 1, p.2)))
    [(0, mesh_lod0)]

/-! ### C1 -/

/-- A tiny concrete mesh for C1. -/
def mesh0W : TriMesh := ⟨[⟨0, 0, 0⟩], []⟩

/-- The concrete simplified mesh produced for the first target in the C1
counterexample. -/
def mesh1W : TriMesh := ⟨[⟨1, 0, 0⟩], []⟩

/-- A decimator that succeeds on the 4096 target and raises on every other
target. -/
def decimFail2 : TriMesh → ℕ → Option TriMesh :=
  fun _ t => if t = 4096 then some mesh1W else none

/-- C1 counterexample: with a decimator failing on the second target, the run
aborts after exactly one simplified LOD (LOD 1) has already been handed to
storage — a partial set of 1 simplified LOD is published, contradicting the
claim that a decimation failure means no subset of 1–3 LODs is ever handed to
storage. -/
theorem c1_partial_publish_counterexample :
    process_and_upload decimFail2 mesh0W = ([(0, mesh0W), (1, mesh1W)], true) ∧
    ((process_and_upload decimFail2 mesh0W).1.filter (fun p => p.1 ≠ 0)).length = 1 ∧
    (1 : ℕ) ≠ 0 ∧ (1 : ℕ) ≠ 4 := by
  refine ⟨?_, ?_, by decide, by decide⟩
  · rfl
  · rfl

/-- C1 amended: the run aborts at the first failing target and publishes
nothing at or beyond it, and it publishes all four simplified LODs exactly
when every decimation succeeds; however the simplified LODs produced before
the failing target (as well as LOD 0) have already been uploaded when the
abort happens, so a failure at target `k` leaves LODs `0..k` published. -/
theorem c1_lod_batch_behaviour (d : TriMesh → ℕ → Option TriMesh) (m0 : TriMesh) :
    ((process_and_upload d m0).2 = false →
      ∃ m1 m2 m3 m4, d m0 4096 = some m1 ∧ d m0 2048 = some m2 ∧
        d m0 1024 = some m3 ∧ d m0 512 = some m4 ∧
        (process_and_upload d m0).1 =
          [(0, m0), (1, m1), (2, m2), (3, m3), (4, m4)]) ∧
    ((process_and_upload d m0).2 = true →
      ∃ k, k < 4 ∧ d m0 (LOD_TARGET_FACES.getD k 0) = none ∧
        (∀ j < k, ∃ mj, d m0 (LOD_TARGET_FACES.getD j 0) = some mj) ∧
        (process_and_upload d m0).1.map Prod.fst = List.range (k + 1)) := by
  have henum : LOD_TARGET_FACES.enum.map (fun p => (p.1 + 1, p.2)) =
      [(1, 4096), (2, 2048), (3, 1024), (4, 512)] := by rfl
  rcases h1 : d m0 4096 with _ | m1
  · have hr : process_and_upload d m0 = ([(0, m0)], true) := by
      simp [process_and_upload, henum, lodLoop, simplify_mesh, h1]
    refine ⟨fun hf => by simp [hr] at hf, fun _ => ⟨0, by norm_num, ?_, ?_, ?_⟩⟩
    · simpa [LOD_TARGET_FACES] using h1
    · intro j hj; omega
    · simp [hr, List.range_succ]
  · rcases h2 : d m0 2048 with _ | m2
    · have hr : process_and_upload d m0 = ([(0, m0), (1, m1)], true) := by
        simp [process_and_upload, henum, lodLoop, simplify_mesh, h1, h2]
      refine ⟨fun hf => by simp [hr] at hf, fun _ => ⟨1, by norm_num, ?_, ?_, ?_⟩⟩
      · simpa [LOD_TARGET_FACES] using h2
      · intro j hj
        interval_cases j
        exact ⟨m1, by simpa [LOD_TARGET_FACES] using h1⟩
      · simp [hr]; decide
    · rcases h3 : d m0 1024 with _ | m3
      · have hr : process_and_upload d m0 = ([(0, m0), (1, m1), (2, m2)], true) := by
          simp [process_and_upload, henum, lodLoop, simplify_mesh, h1, h2, h3]
        refine ⟨fun hf => by simp [hr] at hf, fun _ => ⟨2, by norm_num, ?_, ?_, ?_⟩⟩
        · simpa [LOD_TARGET_FACES] using h3
        · intro j hj
          interval_cases j
          · exact ⟨m1, by simpa [LOD_TARGET_FACES] using h1⟩
          · exact ⟨m2, by simpa [LOD_TARGET_FACES] using h2⟩
        · simp [hr]; decide
      · rcases h4 : d m0 512 with _ | m4
        · have hr : process_and_upload d m0 =
              ([(0, m0), (1, m1), (2, m2), (3, m3)], true) := by
            simp [process_and_upload, henum, lodLoop, simplify_mesh, h1, h2, h3, h4]
          refine ⟨fun hf => by simp [hr] at hf, fun _ => ⟨3, by norm_num, ?_, ?_, ?_⟩⟩
          · simpa [LOD_TARGET_FACES] using h4
          · intro j hj
            interval_cases j
            · exact ⟨m1, by simpa [LOD_TARGET_FACES] using h1⟩
            · exact ⟨m2, by simpa [LOD_TARGET_FACES] using h2⟩
            · exact ⟨m3, by simpa [LOD_TARGET_FACES] using h3⟩
          · simp [hr]; decide
        · have hr : process_and_upload d m0 =
              ([(0, m0), (1, m1), (2, m2), (3, m3), (4, m4)], false) := by
            simp [process_and_upload, henum, lodLoop, simplify_mesh, h1, h2, h3, h4]
          refine ⟨fun _ => ⟨m1, m2, m3, m4, rfl, rfl, rfl, rfl, by simp [hr]⟩,
            fun hf => by simp [hr] at hf⟩

theorem c1_lod_batch_behaviour_witness :
    (process_and_upload decimFail2 mesh0W).2 = true ∧
    ∃ k, k < 4 ∧ decimFail2 mesh0W (LOD_TARGET_FACES.getD k 0) = none ∧
      (∀ j < k, ∃ mj, decimFail2 mesh0W (LOD_TARGET_FACES.getD j 0) = some mj) ∧
      (process_and_upload decimFail2 mesh0W).1.map Prod.fst = List.range (k + 1) :=
  ⟨rfl, (c1_lod_batch_behaviour decimFail2 mesh0W).2 rfl⟩

/-! ## Voxel-size derivation (`mesh_generator_pv.py`, `generate_mesh_pyvista`)

Models lines 140–151: the list `all_radii` of radii above `1e-6`, the abort
when it is empty, and the clamped voxel size derived from its minimum when no
explicit voxel size was supplied. -/

/-- `DEFAULT_VOXEL_SIZE_FACTOR` in `mesh_generator_pv.py`. -/
noncomputable def DEFAULT_VOXEL_SIZE_FACTOR : ℝ := 1.5

/-- `MIN_VOXEL_SIZE` in `mesh_generator_pv.py`. -/
noncomputable def MIN_VOXEL_SIZE : ℝ := 0.1

/-- `MAX_VOXEL_SIZE` in `mesh_generator_pv.py`. -/
noncomputable def MAX_VOXEL_SIZE : ℝ := 5.0

/-- `all_radii = [node.r for node in neuron.nodes if node.r > 1e-6]`. -/
noncomputable def all_radii_of (nodes : List Node) : List ℝ :=
  (nodes.filter (fun n => n.r > 1e-6)).map Node.r

/-- Python `min` over a list; the empty case never occurs in the source
because it is guarded by the `if not all_radii` check. -/
noncomputable def pyMinList : List ℝ → ℝ
  | [] => 0
  | x :: xs => xs.foldl min x

/-- The voxel-size step of `generate_mesh_pyvista`: abort (`return None`) if
no node has radius above `1e-6`; otherwise use the supplied voxel size if any,
else clamp `min_radius * DEFAULT_VOXEL_SIZE_FACTOR` into
`[MIN_VOXEL_SIZE, MAX_VOXEL_SIZE]`. -/
noncomputable def deriveVoxelSize (nodes : List Node) (voxel_size : Option ℝ) :
    Option ℝ :=
  let all_radii := all_radii_of nodes
  if all_radii.isEmpty then none
  else
    let min_radius := pyMinList all_radii
    match voxel_size with
    | some v => some v
    | none =>
      some (max MIN_VOXEL_SIZE (min MAX_VOXEL_SIZE
        (min_radius * DEFAULT_VOXEL_SIZE_FACTOR)))

theorem foldl_min_le_init (xs : List ℝ) : ∀ a : ℝ, xs.foldl min a ≤ a := by
  induction xs with
  | nil => intro a; simp
  | cons x xs ih =>
    intro a
    calc (x :: xs).foldl min a = xs.foldl min (min a x) := by simp
    _ ≤ min a x := ih (min a x)
    _ ≤ a := min_le_left a x

theorem foldl_min_le_mem (xs : List ℝ) :
    ∀ a : ℝ, ∀ x ∈ xs, xs.foldl min a ≤ x := by
  induction xs with
  | nil => intro a x hx; simp at hx
  | cons y ys ih =>
    intro a x hx
    rcases List.mem_cons.mp hx with rfl | hx
    · calc (x :: ys).foldl min a = ys.foldl min (min a x) := by simp
      _ ≤ min a x := foldl_min_le_init ys (min a x)
      _ ≤ x := min_le_right a x
    · calc (y :: ys).foldl min a = ys.foldl min (min a y) := by simp
      _ ≤ x := ih (min a y) x hx

theorem foldl_min_mem (xs : List ℝ) :
    ∀ a : ℝ, xs.foldl min a = a ∨ xs.foldl min a ∈ xs := by
  induction xs with
  | nil => intro a; left; rfl
  | cons y ys ih =>
    intro a
    have hstep : (y :: ys).foldl min a = ys.foldl min (min a y) := by simp
    rcases ih (min a y) with h | h
    · rcases le_total a y with hay | hya
      · left; rw [hstep, h, min_eq_left hay]
      · right; rw [hstep, h, min_eq_right hya]; exact List.mem_cons_self _ _
    · right; rw [hstep]; exact List.mem_cons_of_mem _ h

/-- `pyMinList` of a nonempty list is a member and a lower bound. -/
theorem pyMinList_spec (l : List ℝ) (h : l ≠ []) :
    pyMinList l ∈ l ∧ ∀ x ∈ l, pyMinList l ≤ x := by
  rcases l with _ | ⟨a, xs⟩
  · exact absurd rfl h
  · constructor
    · rcases foldl_min_mem xs a with he | he
      · rw [pyMinList, he]; exact List.mem_cons_self _ _
      · exact List.mem_cons_of_mem _ he
    · intro x hx
      rcases List.mem_cons.mp hx with rfl | hx
      · exact foldl_min_le_init xs x
      · exact foldl_min_le_mem xs a x hx

/-! ### C6 -/

/-- A node with a positive radius below the `1e-6` threshold. -/
noncomputable def nodeTiny : Node := ⟨1, 1, 0, 0, 0, 1e-7, -1⟩

/-- C6 counterexample: a neuron whose only node has the positive radius
`1e-7` — the claim says the voxel size `clamp(1e-7 * 1.5, 0.1, 5.0)` is used,
but the code finds no radius above its `1e-6` cutoff and aborts
(`DegenerateInput`). -/
theorem c6_threshold_counterexample :
    (∃ n ∈ [nodeTiny], (0 : ℝ) < n.r) ∧
    deriveVoxelSize [nodeTiny] none = none := by
  constructor
  · exact ⟨nodeTiny, List.mem_singleton_self _, by norm_num [nodeTiny]⟩
  · have hf : all_radii_of [nodeTiny] = [] := by
      simp only [all_radii_of, List.filter]
      norm_num [nodeTiny]
    simp [deriveVoxelSize, hf]

/-- C6 amended: when `voxel_size` is not supplied, the code derives it from
the minimum radius *strictly above `1e-6`* (not above `0`): if some node has
`r > 1e-6` the voxel size equals `clamp(m * 1.5, 0.1, 5.0)` for `m` the least
such radius, and if no node has `r > 1e-6` (even if positive radii exist)
reconstruction aborts. -/
theorem c6_voxel_size_derivation (nodes : List Node) :
    ((∃ n ∈ nodes, n.r > 1e-6) →
      ∃ m, m ∈ all_radii_of nodes ∧ (∀ x ∈ all_radii_of nodes, m ≤ x) ∧
        deriveVoxelSize nodes none =
          some (max MIN_VOXEL_SIZE (min MAX_VOXEL_SIZE
            (m * DEFAULT_VOXEL_SIZE_FACTOR)))) ∧
    ((∀ n ∈ nodes, ¬ n.r > 1e-6) → deriveVoxelSize nodes none = none) := by
  constructor
  · rintro ⟨n, hn, hr⟩
    have hne : all_radii_of nodes ≠ [] := by
      have : n.r ∈ all_radii_of nodes :=
        List.mem_map_of_mem _ (List.mem_filter.mpr ⟨hn, by simpa using hr⟩)
      intro h; rw [h] at this; simp at this
    obtain ⟨hmem, hle⟩ := pyMinList_spec _ hne
    refine ⟨pyMinList (all_radii_of nodes), hmem, hle, ?_⟩
    simp [deriveVoxelSize, List.isEmpty_iff, hne]
  · intro h
    have hf : all_radii_of nodes = [] := by
      simp only [all_radii_of, List.map_eq_nil_iff, List.filter_eq_nil_iff]
      intro a ha
      simpa using h a ha
    simp [deriveVoxelSize, hf]

/-- A node with radius 2 for the C6 witness. -/
noncomputable def nodeBig : Node := ⟨1, 1, 0, 0, 0, 2, -1⟩

theorem c6_voxel_size_derivation_witness :
    (∃ n ∈ [nodeBig], n.r > 1e-6) ∧
    ∃ m, m ∈ all_radii_of [nodeBig] ∧ (∀ x ∈ all_radii_of [nodeBig], m ≤ x) ∧
      deriveVoxelSize [nodeBig] none =
        some (max MIN_VOXEL_SIZE (min MAX_VOXEL_SIZE
          (m * DEFAULT_VOXEL_SIZE_FACTOR))) :=
  ⟨⟨nodeBig, List.mem_singleton_self _, by norm_num [nodeBig]⟩,
    (c6_voxel_size_derivation [nodeBig]).1
      ⟨nodeBig, List.mem_singleton_self _, by norm_num [nodeBig]⟩⟩

/-! ## Segment frustum generation (`mesh_generator.py`, `create_segment_frustum`)

The construction is factored into named definitions that mirror the local
variables of the Python function: `segLen` (`length`), `segAxisDir`
(`vector_norm`), `segPerp1raw`/`segPerp1` (`perp1` before and after
normalisation), `segPerp2` (`perp2`), the vertex ring points
(`p + r*(cos(angle)*perp1 + sin(angle)*perp2)`), and the face table built by
the `for i in range(sections)` loop.  `trimesh.creation.icosphere` (the
degenerate-axis fallback) is an external library call, passed in as
`ico : ℝ → TriMesh` taking the radius `(r1+r2)/2`. -/

/-- The `i`-th angle of `np.linspace(0, 2*pi, sections, endpoint=False)`. -/
noncomputable def angleOf (sections i : ℕ) : ℝ := 2 * Real.pi * i / sections

/-- One ring vertex: `p + r*(cos θ * perp1 + sin θ * perp2)`. -/
noncomputable def ringPt (p : V3) (r : ℝ) (perp1 perp2 : V3) (θ : ℝ) : V3 :=
  p + r • (Real.cos θ • perp1 + Real.sin θ • perp2)

/-- The vertex buffer built by `create_segment_frustum`: `p1`, the first ring,
`p2`, the second ring. -/
noncomputable def frustumVertices (p1 p2 : V3) (r1 r2 : ℝ) (perp1 perp2 : V3)
    (sections : ℕ) : List V3 :=
  p1 :: ((List.range sections).map (fun i => ringPt p1 r1 perp1 perp2 (angleOf sections i))
    ++ p2 :: (List.range sections).map (fun i => ringPt p2 r2 perp1 perp2 (angleOf sections i)))

/-- The four faces appended for loop index `i`: two lateral quad-split
triangles `[v1,v2,v4]`, `[v2,v3,v4]`, then one fan triangle per cap,
with `v1 = 1+i`, `v2 = 1+(i+1)%sections`, `v3 = 2+sections+(i+1)%sections`,
`v4 = 2+sections+i`, `cap1_center = 0`, `cap2_center = 1+sections`. -/
def panelFaces (sections i : ℕ) : List (ℕ × ℕ × ℕ) :=
  [(i + 1, (i + 1) % sections + 1, sections + 2 + i),
   ((i + 1) % sections + 1, sections + 2 + (i + 1) % sections, sections + 2 + i),
   (0, (i + 1) % sections + 1, i + 1),
   (sections + 1, sections + 2 + i, sections + 2 + (i + 1) % sections)]

/-- The face buffer of `create_segment_frustum`. -/
def frustumFaces (sections : ℕ) : List (ℕ × ℕ × ℕ) :=
  (List.range sections).flatMap (panelFaces sections)

/-- The lateral (side-panel) faces among `frustumFaces`. -/
def lateralFacesL (sections : ℕ) : List (ℕ × ℕ × ℕ) :=
  (List.range sections).flatMap (fun i => (panelFaces sections i).take 2)

/-- The cap (fan) faces among `frustumFaces`. -/
def capFacesL (sections : ℕ) : List (ℕ × ℕ × ℕ) :=
  (List.range sections).flatMap (fun i => (panelFaces sections i).drop 2)

/-- `length = np.linalg.norm(p2 - p1)`. -/
noncomputable def segLen (node1 node2 : Node) : ℝ := V3.norm (node2.pos - node1.pos)

/-- `vector_norm = vector / length`. -/
noncomputable def segAxisDir (node1 node2 : Node) : V3 :=
  (1 / segLen node1 node2) • (node2.pos - node1.pos)

/-- `perp1` before normalisation: cross the axis with `[0,0,1]` when the axis
is nearly parallel to `x` or `y`, else with `[1,0,0]`. -/
noncomputable def segPerp1raw (node1 node2 : Node) : V3 :=
  if 0.99 < |(segAxisDir node1 node2).x| ∨ 0.99 < |(segAxisDir node1 node2).y| then
    V3.cross (segAxisDir node1 node2) ⟨0, 0, 1⟩
  else V3.cross (segAxisDir node1 node2) ⟨1, 0, 0⟩

/-- `perp1 /= np.linalg.norm(perp1)`. -/
noncomputable def segPerp1 (node1 node2 : Node) : V3 :=
  (1 / V3.norm (segPerp1raw node1 node2)) • segPerp1raw node1 node2

/-- `perp2 = np.cross(vector_norm, perp1)`. -/
noncomputable def segPerp2 (node1 node2 : Node) : V3 :=
  V3.cross (segAxisDir node1 node2) (segPerp1 node1 node2)

/-- `create_segment_frustum(node1, node2, sections=16)`: if the centers are
closer than `1e-6`, fall back to an icosphere of radius `(r1+r2)/2`;
otherwise build the frustum vertex and face buffers. -/
noncomputable def create_segment_frustum (ico : ℝ → TriMesh) (node1 node2 : Node)
    (sections : ℕ := 16) : TriMesh :=
  if segLen node1 node2 < 1e-6 then ico ((node1.r + node2.r) / 2)
  else
    { vertices := frustumVertices node1.pos node2.pos node1.r node2.r
        (segPerp1 node1 node2) (segPerp2 node1 node2) sections
      faces := frustumFaces sections }

/-! ### C5 -/

/-- C5: when the two centers coincide within the `1e-6` tolerance,
`create_segment_frustum` recovers locally: it returns the icosphere
sphere-approximation of radius `(r1+r2)/2` (and hence, the library icosphere
being nonempty, a non-empty mesh) and never propagates a failure. -/
theorem c5_degenerate_axis_fallback (ico : ℝ → TriMesh) (node1 node2 : Node)
    (sections : ℕ)
    (h : segLen node1 node2 < 1e-6)
    (hico : ∀ r, (ico r).vertices ≠ []) :
    create_segment_frustum ico node1 node2 sections = ico ((node1.r + node2.r) / 2) ∧
    (create_segment_frustum ico node1 node2 sections).vertices ≠ [] := by
  have he : create_segment_frustum ico node1 node2 sections =
      ico ((node1.r + node2.r) / 2) := by
    rw [create_segment_frustum, if_pos h]
  exact ⟨he, he ▸ hico _⟩

/-- A concrete stand-in for the library icosphere, used by witnesses. -/
noncomputable def icoW : ℝ → TriMesh := fun r => ⟨[⟨r, 0, 0⟩], []⟩

/-- Two coincident nodes for the C5 witness. -/
noncomputable def nodeCo1 : Node := ⟨1, 1, 0, 0, 0, 1, -1⟩

/-- Second coincident node for the C5 witness. -/
noncomputable def nodeCo2 : Node := ⟨2, 1, 0, 0, 0, 2, 1⟩

theorem c5_degenerate_axis_fallback_witness :
    segLen nodeCo1 nodeCo2 < 1e-6 ∧
    create_segment_frustum icoW nodeCo1 nodeCo2 16 =
      icoW ((nodeCo1.r + nodeCo2.r) / 2) ∧
    (create_segment_frustum icoW nodeCo1 nodeCo2 16).vertices ≠ [] := by
  have h : segLen nodeCo1 nodeCo2 < 1e-6 := by
    have : segLen nodeCo1 nodeCo2 = 0 := by
      simp [segLen, nodeCo1, nodeCo2, Node.pos, V3.norm, V3.dot, V3.sub_def,
        Real.sqrt_eq_zero']
    rw [this]; norm_num
  refine ⟨h, c5_degenerate_axis_fallback icoW nodeCo1 nodeCo2 16 h ?_⟩
  intro r
  simp [icoW]

/-! ### C2: the face counts -/

/-- First node for the C2 counterexample: unit radius at the origin. -/
noncomputable def nodeF1 : Node := ⟨1, 1, 0, 0, 0, 1, -1⟩

/-- Second node for the C2 counterexample: unit radius one unit away. -/
noncomputable def nodeF2 : Node := ⟨2, 1, 0, 0, 1, 1, 1⟩

theorem segLen_nodeF : segLen nodeF1 nodeF2 = 1 := by
  simp [segLen, nodeF1, nodeF2, Node.pos, V3.norm, V3.dot, V3.sub_def]

/-- C2 counterexample: with `sides = 16` the frustum mesh has 64 faces in
total — 2·16 lateral triangles plus 2·16 cap triangles — whereas the claim
demands `2*(2*16) = 64` lateral triangles plus `2*16 = 32` cap triangles
(96 in total). -/
theorem c2_lateral_count_counterexample :
    (create_segment_frustum icoW nodeF1 nodeF2 16).faces.length = 64 ∧
    (lateralFacesL 16).length = 2 * 16 ∧
    (capFacesL 16).length = 2 * 16 ∧
    (create_segment_frustum icoW nodeF1 nodeF2 16).faces.length ≠
      2 * (2 * 16) + 2 * 16 ∧
    (lateralFacesL 16).length ≠ 2 * (2 * 16) := by
  have hlen : ¬ segLen nodeF1 nodeF2 < 1e-6 := by
    rw [segLen_nodeF]; norm_num
  have hf : (create_segment_frustum icoW nodeF1 nodeF2 16).faces = frustumFaces 16 := by
    rw [create_segment_frustum, if_neg hlen]
  rw [hf]
  refine ⟨by decide, by decide, by decide, by decide, by decide⟩

/-! ### C2: outward winding of the lateral faces

`lateralOutwardDot` formalises "the normal at a lateral face points away from
the axis": it is the dot product of the face's cross-product normal with the
radial component (relative to the segment axis) of the face centroid. -/

theorem V3.dot_smul_left (c : ℝ) (a b : V3) :
    V3.dot (c • a) b = c * V3.dot a b := by
  simp only [V3.dot, V3.smul_def]; ring

/-- Vertex lookup in a mesh (out-of-range indices give the origin; all lookups
made below are in range). -/
noncomputable def faceVert (m : TriMesh) (i : ℕ) : V3 := m.vertices.getD i 0

/-- The (unnormalised) face normal `(b - a) × (c - a)` of a face `(a,b,c)`. -/
noncomputable def faceNormal (m : TriMesh) (f : ℕ × ℕ × ℕ) : V3 :=
  V3.cross (faceVert m f.2.1 - faceVert m f.1) (faceVert m f.2.2 - faceVert m f.1)

/-- The centroid of a triangular face. -/
noncomputable def faceCentroid (m : TriMesh) (f : ℕ × ℕ × ℕ) : V3 :=
  (1 / 3 : ℝ) • (faceVert m f.1 + faceVert m f.2.1 + faceVert m f.2.2)

/-- The component of `q - p` orthogonal to the (unit) axis direction: the
outward radial direction at `q` relative to the axis through `p`. -/
noncomputable def radialFrom (p axis q : V3) : V3 :=
  (q - p) - (V3.dot (q - p) axis) • axis

/-- How far the face normal points away from the segment axis: positive iff
the normal has a positive component along the outward radial direction at the
face centroid. -/
noncomputable def lateralOutwardDot (node1 node2 : Node) (m : TriMesh)
    (f : ℕ × ℕ × ℕ) : ℝ :=
  V3.dot (faceNormal m f)
    (radialFrom node1.pos (segAxisDir node1 node2) (faceCentroid m f))

/-- Polynomial identity: the dot product of the cross product of two vectors
written in the frame `(n, e1, n × e1)` with the axis-orthogonal component of a
third, for arbitrary `n`, `e1`. -/
theorem dot_cross_radial_general (n e1 : V3) (a0 a1 a2 b0 b1 b2 u0 ua ub : ℝ) :
    V3.dot (V3.cross (a0 • n + a1 • e1 + a2 • V3.cross n e1)
        (b0 • n + b1 • e1 + b2 • V3.cross n e1))
      ((u0 • n + ua • e1 + ub • V3.cross n e1) -
        (V3.dot (u0 • n + ua • e1 + ub • V3.cross n e1) n) • n)
    = ((a2 * b0 - a0 * b2) * (V3.dot n n) + (a2 * b1 - a1 * b2) * (V3.dot e1 n)) *
        (u0 * (V3.dot e1 n) + ua * (V3.dot e1 e1) -
          (u0 * (V3.dot n n) + ua * (V3.dot e1 n)) * (V3.dot e1 n))
      + (a0 * b1 - a1 * b0) * ub *
          ((V3.dot n n) * (V3.dot e1 e1) - (V3.dot e1 n) ^ 2)
      + ((a0 * b2 - a2 * b0) * (V3.dot e1 n) + (a1 * b2 - a2 * b1) * (V3.dot e1 e1)) *
          (u0 * (V3.dot n n) + ua * (V3.dot e1 n)) * (1 - V3.dot n n) := by
  simp only [V3.dot, V3.cross, V3.add_def, V3.sub_def, V3.smul_def]
  ring

/-- Specialisation of `dot_cross_radial_general` to an orthonormal frame. -/
theorem dot_cross_radial_unit (n e1 : V3) (hn : V3.dot n n = 1)
    (he : V3.dot e1 e1 = 1) (hd : V3.dot e1 n = 0)
    (a0 a1 a2 b0 b1 b2 u0 ua ub : ℝ) :
    V3.dot (V3.cross (a0 • n + a1 • e1 + a2 • V3.cross n e1)
        (b0 • n + b1 • e1 + b2 • V3.cross n e1))
      ((u0 • n + ua • e1 + ub • V3.cross n e1) -
        (V3.dot (u0 • n + ua • e1 + ub • V3.cross n e1) n) • n)
    = ua * (a2 * b0 - a0 * b2) + ub * (a0 * b1 - a1 * b0) := by
  rw [dot_cross_radial_general n e1 a0 a1 a2 b0 b1 b2 u0 ua ub, hn, he, hd]
  ring

/-! Frame facts for the non-degenerate branch of `create_segment_frustum`. -/

theorem segLen_pos (node1 node2 : Node) (h : ¬ segLen node1 node2 < 1e-6) :
    0 < segLen node1 node2 := by
  have h1 : (1e-6 : ℝ) ≤ segLen node1 node2 := not_lt.mp h
  have h2 : (0 : ℝ) < 1e-6 := by norm_num
  linarith

theorem segAxisDir_unit (node1 node2 : Node) (h : ¬ segLen node1 node2 < 1e-6) :
    V3.dot (segAxisDir node1 node2) (segAxisDir node1 node2) = 1 := by
  have hp := segLen_pos node1 node2 h
  have hd : 0 < V3.dot (node2.pos - node1.pos) (node2.pos - node1.pos) := by
    rw [V3.dot_self_eq_norm_sq]
    have : V3.norm (node2.pos - node1.pos) = segLen node1 node2 := rfl
    rw [this]
    positivity
  simpa [segAxisDir, segLen] using V3.dot_normalize_self (node2.pos - node1.pos) hd

theorem segPerp1raw_dot_pos (node1 node2 : Node) (h : ¬ segLen node1 node2 < 1e-6) :
    0 < V3.dot (segPerp1raw node1 node2) (segPerp1raw node1 node2) := by
  have hu := segAxisDir_unit node1 node2 h
  simp only [V3.dot] at hu
  rw [segPerp1raw]
  by_cases hc : 0.99 < |(segAxisDir node1 node2).x| ∨ 0.99 < |(segAxisDir node1 node2).y|
  · rw [if_pos hc]
    simp only [V3.dot, V3.cross]
    rcases hc with hx | hy
    · nlinarith [sq_abs (segAxisDir node1 node2).x, abs_nonneg (segAxisDir node1 node2).x,
        sq_nonneg (segAxisDir node1 node2).y]
    · nlinarith [sq_abs (segAxisDir node1 node2).y, abs_nonneg (segAxisDir node1 node2).y,
        sq_nonneg (segAxisDir node1 node2).x]
  · rw [if_neg hc]
    push_neg at hc
    simp only [V3.dot, V3.cross]
    nlinarith [sq_abs (segAxisDir node1 node2).x, abs_nonneg (segAxisDir node1 node2).x,
      hc.1, hu]

theorem segPerp1_unit (node1 node2 : Node) (h : ¬ segLen node1 node2 < 1e-6) :
    V3.dot (segPerp1 node1 node2) (segPerp1 node1 node2) = 1 := by
  simpa [segPerp1] using
    V3.dot_normalize_self (segPerp1raw node1 node2) (segPerp1raw_dot_pos node1 node2 h)

theorem segPerp1_orth (node1 node2 : Node) :
    V3.dot (segPerp1 node1 node2) (segAxisDir node1 node2) = 0 := by
  rw [segPerp1, V3.dot_smul_left]
  have : V3.dot (segPerp1raw node1 node2) (segAxisDir node1 node2) = 0 := by
    rw [segPerp1raw]
    split_ifs <;> rw [V3.dot_comm] <;> exact V3.dot_cross_self_left _ _
  rw [this, mul_zero]

theorem pos2_eq_axis (node1 node2 : Node) (h : ¬ segLen node1 node2 < 1e-6) :
    node2.pos = node1.pos + segLen node1 node2 • segAxisDir node1 node2 := by
  have hL : segLen node1 node2 ≠ 0 := (segLen_pos node1 node2 h).ne'
  ext <;> simp [segAxisDir, V3.smul_def, V3.add_def, V3.sub_def] <;> field_simp

/-! Vertex lookups in the frustum vertex buffer. -/

theorem getD_map_range (g : ℕ → V3) (s i : ℕ) (h : i < s) (d : V3) :
    ((List.range s).map g).getD i d = g i := by
  rw [List.getD_eq_getElem?_getD]
  simp [List.getElem?_map, List.getElem?_range, h]

theorem frustumVertices_getD_ring1 (p1 p2 : V3) (r1 r2 : ℝ) (e f : V3)
    (s i : ℕ) (h : i < s) (d : V3) :
    (frustumVertices p1 p2 r1 r2 e f s).getD (i + 1) d =
      ringPt p1 r1 e f (angleOf s i) := by
  rw [frustumVertices, List.getD_cons_succ]
  rw [List.getD_append _ _ _ _ (by simpa using h)]
  exact getD_map_range _ s i h d

theorem frustumVertices_getD_ring2 (p1 p2 : V3) (r1 r2 : ℝ) (e f : V3)
    (s i : ℕ) (h : i < s) (d : V3) :
    (frustumVertices p1 p2 r1 r2 e f s).getD (s + 2 + i) d =
      ringPt p2 r2 e f (angleOf s i) := by
  have h1 : s + 2 + i = (s + 1 + i) + 1 := by omega
  rw [frustumVertices, h1, List.getD_cons_succ]
  have h2 : ((List.range s).map
      (fun k => ringPt p1 r1 e f (angleOf s k))).length ≤ s + 1 + i := by
    simp; omega
  rw [List.getD_append_right _ _ _ _ h2]
  have h3 : s + 1 + i - ((List.range s).map
      (fun k => ringPt p1 r1 e f (angleOf s k))).length = i + 1 := by
    simp; omega
  rw [h3, List.getD_cons_succ]
  exact getD_map_range _ s i h d

/-- The gap between consecutive ring angles (cyclically) has positive sine. -/
theorem sin_angle_gap_pos (i : ℕ) (h : i < 16) :
    0 < Real.sin (angleOf 16 ((i + 1) % 16) - angleOf 16 i) := by
  have hpi := Real.pi_pos
  have hsin : 0 < Real.sin (Real.pi / 8) :=
    Real.sin_pos_of_pos_of_lt_pi (by linarith) (by linarith)
  by_cases h15 : i < 15
  · have hj : (i + 1) % 16 = i + 1 := Nat.mod_eq_of_lt (by omega)
    have hgap : angleOf 16 ((i + 1) % 16) - angleOf 16 i = Real.pi / 8 := by
      rw [hj, angleOf, angleOf]
      push_cast
      ring
    rw [hgap]; exact hsin
  · have hi : i = 15 := by omega
    subst hi
    have hgap : angleOf 16 ((15 + 1) % 16) - angleOf 16 15 =
        Real.pi / 8 - 2 * Real.pi := by
      norm_num [angleOf]
      ring
    rw [hgap, Real.sin_sub_two_pi]
    exact hsin

/-- Outward winding of the first lateral triangle `[v1, v2, v4]` of a panel. -/
theorem lateral1_outward (p1 n e1 : V3) (L r1 r2 θ θ2 : ℝ)
    (hn : V3.dot n n = 1) (he : V3.dot e1 e1 = 1) (hd : V3.dot e1 n = 0)
    (hL : 0 < L) (hr1 : 0 < r1) (hr2 : 0 ≤ r2)
    (hsin : 0 < Real.sin (θ2 - θ)) :
    0 < V3.dot
      (V3.cross
        (ringPt p1 r1 e1 (V3.cross n e1) θ2 - ringPt p1 r1 e1 (V3.cross n e1) θ)
        (ringPt (p1 + L • n) r2 e1 (V3.cross n e1) θ -
          ringPt p1 r1 e1 (V3.cross n e1) θ))
      (radialFrom p1 n ((1 / 3 : ℝ) •
        (ringPt p1 r1 e1 (V3.cross n e1) θ + ringPt p1 r1 e1 (V3.cross n e1) θ2 +
          ringPt (p1 + L • n) r2 e1 (V3.cross n e1) θ))) := by
  have hA : ringPt p1 r1 e1 (V3.cross n e1) θ2 - ringPt p1 r1 e1 (V3.cross n e1) θ =
      (0 : ℝ) • n + (r1 * Real.cos θ2 - r1 * Real.cos θ) • e1 +
        (r1 * Real.sin θ2 - r1 * Real.sin θ) • V3.cross n e1 := by
    ext <;> simp [ringPt, V3.add_def, V3.sub_def, V3.smul_def, V3.cross] <;> ring
  have hB : ringPt (p1 + L • n) r2 e1 (V3.cross n e1) θ -
      ringPt p1 r1 e1 (V3.cross n e1) θ =
      L • n + (r2 * Real.cos θ - r1 * Real.cos θ) • e1 +
        (r2 * Real.sin θ - r1 * Real.sin θ) • V3.cross n e1 := by
    ext <;> simp [ringPt, V3.add_def, V3.sub_def, V3.smul_def, V3.cross] <;> ring
  have hu : (1 / 3 : ℝ) •
      (ringPt p1 r1 e1 (V3.cross n e1) θ + ringPt p1 r1 e1 (V3.cross n e1) θ2 +
        ringPt (p1 + L • n) r2 e1 (V3.cross n e1) θ) - p1 =
      (L / 3) • n +
        ((r1 * Real.cos θ + r1 * Real.cos θ2 + r2 * Real.cos θ) / 3) • e1 +
        ((r1 * Real.sin θ + r1 * Real.sin θ2 + r2 * Real.sin θ) / 3) •
          V3.cross n e1 := by
    ext <;> simp [ringPt, V3.add_def, V3.sub_def, V3.smul_def, V3.cross] <;> ring
  rw [radialFrom, hu, hA, hB,
    dot_cross_radial_unit n e1 hn he hd 0 (r1 * Real.cos θ2 - r1 * Real.cos θ)
      (r1 * Real.sin θ2 - r1 * Real.sin θ) L (r2 * Real.cos θ - r1 * Real.cos θ)
      (r2 * Real.sin θ - r1 * Real.sin θ) (L / 3)
      ((r1 * Real.cos θ + r1 * Real.cos θ2 + r2 * Real.cos θ) / 3)
      ((r1 * Real.sin θ + r1 * Real.sin θ2 + r2 * Real.sin θ) / 3)]
  have key : ((r1 * Real.cos θ + r1 * Real.cos θ2 + r2 * Real.cos θ) / 3) *
        ((r1 * Real.sin θ2 - r1 * Real.sin θ) * L -
          0 * (r2 * Real.sin θ - r1 * Real.sin θ)) +
      ((r1 * Real.sin θ + r1 * Real.sin θ2 + r2 * Real.sin θ) / 3) *
        (0 * (r2 * Real.cos θ - r1 * Real.cos θ) -
          (r1 * Real.cos θ2 - r1 * Real.cos θ) * L) =
      L * (r1 * (2 * r1 + r2)) * Real.sin (θ2 - θ) / 3 := by
    rw [Real.sin_sub]
    ring
  rw [key]
  have h1 : 0 < 2 * r1 + r2 := by linarith
  have h2 : 0 < L * (r1 * (2 * r1 + r2)) * Real.sin (θ2 - θ) :=
    mul_pos (mul_pos hL (mul_pos hr1 h1)) hsin
  linarith

/-- Outward winding of the second lateral triangle `[v2, v3, v4]` of a
panel. -/
theorem lateral2_outward (p1 n e1 : V3) (L r1 r2 θ θ2 : ℝ)
    (hn : V3.dot n n = 1) (he : V3.dot e1 e1 = 1) (hd : V3.dot e1 n = 0)
    (hL : 0 < L) (hr1 : 0 ≤ r1) (hr2 : 0 < r2)
    (hsin : 0 < Real.sin (θ2 - θ)) :
    0 < V3.dot
      (V3.cross
        (ringPt (p1 + L • n) r2 e1 (V3.cross n e1) θ2 -
          ringPt p1 r1 e1 (V3.cross n e1) θ2)
        (ringPt (p1 + L • n) r2 e1 (V3.cross n e1) θ -
          ringPt p1 r1 e1 (V3.cross n e1) θ2))
      (radialFrom p1 n ((1 / 3 : ℝ) •
        (ringPt p1 r1 e1 (V3.cross n e1) θ2 +
          ringPt (p1 + L • n) r2 e1 (V3.cross n e1) θ2 +
          ringPt (p1 + L • n) r2 e1 (V3.cross n e1) θ))) := by
  have hA : ringPt (p1 + L • n) r2 e1 (V3.cross n e1) θ2 -
      ringPt p1 r1 e1 (V3.cross n e1) θ2 =
      L • n + (r2 * Real.cos θ2 - r1 * Real.cos θ2) • e1 +
        (r2 * Real.sin θ2 - r1 * Real.sin θ2) • V3.cross n e1 := by
    ext <;> simp [ringPt, V3.add_def, V3.sub_def, V3.smul_def, V3.cross] <;> ring
  have hB : ringPt (p1 + L • n) r2 e1 (V3.cross n e1) θ -
      ringPt p1 r1 e1 (V3.cross n e1) θ2 =
      L • n + (r2 * Real.cos θ - r1 * Real.cos θ2) • e1 +
        (r2 * Real.sin θ - r1 * Real.sin θ2) • V3.cross n e1 := by
    ext <;> simp [ringPt, V3.add_def, V3.sub_def, V3.smul_def, V3.cross] <;> ring
  have hu : (1 / 3 : ℝ) •
      (ringPt p1 r1 e1 (V3.cross n e1) θ2 +
        ringPt (p1 + L • n) r2 e1 (V3.cross n e1) θ2 +
        ringPt (p1 + L • n) r2 e1 (V3.cross n e1) θ) - p1 =
      (2 * L / 3) • n +
        ((r1 * Real.cos θ2 + r2 * Real.cos θ2 + r2 * Real.cos θ) / 3) • e1 +
        ((r1 * Real.sin θ2 + r2 * Real.sin θ2 + r2 * Real.sin θ) / 3) •
          V3.cross n e1 := by
    ext <;> simp [ringPt, V3.add_def, V3.sub_def, V3.smul_def, V3.cross] <;> ring
  rw [radialFrom, hu, hA, hB,
    dot_cross_radial_unit n e1 hn he hd L (r2 * Real.cos θ2 - r1 * Real.cos θ2)
      (r2 * Real.sin θ2 - r1 * Real.sin θ2) L (r2 * Real.cos θ - r1 * Real.cos θ2)
      (r2 * Real.sin θ - r1 * Real.sin θ2) (2 * L / 3)
      ((r1 * Real.cos θ2 + r2 * Real.cos θ2 + r2 * Real.cos θ) / 3)
      ((r1 * Real.sin θ2 + r2 * Real.sin θ2 + r2 * Real.sin θ) / 3)]
  have key : ((r1 * Real.cos θ2 + r2 * Real.cos θ2 + r2 * Real.cos θ) / 3) *
        ((r2 * Real.sin θ2 - r1 * Real.sin θ2) * L -
          L * (r2 * Real.sin θ - r1 * Real.sin θ2)) +
      ((r1 * Real.sin θ2 + r2 * Real.sin θ2 + r2 * Real.sin θ) / 3) *
        (L * (r2 * Real.cos θ - r1 * Real.cos θ2) -
          (r2 * Real.cos θ2 - r1 * Real.cos θ2) * L) =
      L * (r2 * (r1 + 2 * r2)) * Real.sin (θ2 - θ) / 3 := by
    rw [Real.sin_sub]
    ring
  rw [key]
  have h1 : 0 < r1 + 2 * r2 := by linarith
  have h2 : 0 < L * (r2 * (r1 + 2 * r2)) * Real.sin (θ2 - θ) :=
    mul_pos (mul_pos hL (mul_pos hr2 h1)) hsin
  linarith

/-- Every lateral face of the generated frustum winds outward: its normal has
positive dot product with the outward radial direction at its centroid. -/
theorem lateral_faces_outward (ico : ℝ → TriMesh) (node1 node2 : Node)
    (hlen : ¬ segLen node1 node2 < 1e-6)
    (hr1 : 0 < node1.r) (hr2 : 0 < node2.r) :
    ∀ f ∈ lateralFacesL 16,
      0 < lateralOutwardDot node1 node2 (create_segment_frustum ico node1 node2 16) f := by
  intro f hf
  have hm : create_segment_frustum ico node1 node2 16 =
      ⟨frustumVertices node1.pos node2.pos node1.r node2.r
        (segPerp1 node1 node2) (segPerp2 node1 node2) 16, frustumFaces 16⟩ := by
    rw [create_segment_frustum, if_neg hlen]
  have hn := segAxisDir_unit node1 node2 hlen
  have he := segPerp1_unit node1 node2 hlen
  have hd := segPerp1_orth node1 node2
  have hL := segLen_pos node1 node2 hlen
  have hp2 := pos2_eq_axis node1 node2 hlen
  have hperp2 : segPerp2 node1 node2 =
      V3.cross (segAxisDir node1 node2) (segPerp1 node1 node2) := rfl
  obtain ⟨i, hi, hfi⟩ := List.mem_flatMap.mp hf
  have hilt : i < 16 := List.mem_range.mp hi
  have hjlt : (i + 1) % 16 < 16 := Nat.mod_lt _ (by norm_num)
  have hsin := sin_angle_gap_pos i hilt
  simp only [panelFaces, List.take, List.mem_cons, List.not_mem_nil, or_false] at hfi
  rcases hfi with rfl | rfl
  · rw [hm]
    simp only [lateralOutwardDot, faceNormal, faceCentroid, faceVert]
    rw [frustumVertices_getD_ring1 _ _ _ _ _ _ 16 i hilt 0,
      frustumVertices_getD_ring1 _ _ _ _ _ _ 16 ((i + 1) % 16) hjlt 0,
      frustumVertices_getD_ring2 _ _ _ _ _ _ 16 i hilt 0,
      hperp2, hp2]
    exact lateral1_outward node1.pos (segAxisDir node1 node2) (segPerp1 node1 node2)
      (segLen node1 node2) node1.r node2.r (angleOf 16 i) (angleOf 16 ((i + 1) % 16))
      hn he hd hL hr1 (le_of_lt hr2) hsin
  · rw [hm]
    simp only [lateralOutwardDot, faceNormal, faceCentroid, faceVert]
    rw [frustumVertices_getD_ring1 _ _ _ _ _ _ 16 ((i + 1) % 16) hjlt 0,
      frustumVertices_getD_ring2 _ _ _ _ _ _ 16 ((i + 1) % 16) hjlt 0,
      frustumVertices_getD_ring2 _ _ _ _ _ _ 16 i hilt 0,
      hperp2, hp2]
    exact lateral2_outward node1.pos (segAxisDir node1 node2) (segPerp1 node1 node2)
      (segLen node1 node2) node1.r node2.r (angleOf 16 i) (angleOf 16 ((i + 1) % 16))
      hn he hd hL (le_of_lt hr1) hr2 hsin

/-- C2 amended: for nodes farther apart than the degeneracy tolerance and with
positive radii, `create_segment_frustum(·,·,16)` returns a mesh whose face
buffer consists of exactly `2*16` lateral triangles plus `2*16` cap triangles
(`4*16 = 64` in total, not `2*(2*16) + 2*16 = 96`), and every lateral face
winds outward: its normal points away from the segment axis. -/
theorem c2_frustum_faces_and_winding (ico : ℝ → TriMesh) (node1 node2 : Node)
    (hlen : ¬ segLen node1 node2 < 1e-6)
    (hr1 : 0 < node1.r) (hr2 : 0 < node2.r) :
    (create_segment_frustum ico node1 node2 16).faces = frustumFaces 16 ∧
    (frustumFaces 16).Perm (lateralFacesL 16 ++ capFacesL 16) ∧
    (lateralFacesL 16).length = 2 * 16 ∧
    (capFacesL 16).length = 2 * 16 ∧
    (frustumFaces 16).length = 2 * 16 + 2 * 16 ∧
    ∀ f ∈ lateralFacesL 16,
      0 < lateralOutwardDot node1 node2 (create_segment_frustum ico node1 node2 16) f :=
  ⟨by rw [create_segment_frustum, if_neg hlen], by decide, by decide, by decide,
    by decide, lateral_faces_outward ico node1 node2 hlen hr1 hr2⟩

theorem c2_frustum_faces_and_winding_witness :
    ¬ segLen nodeF1 nodeF2 < 1e-6 ∧ 0 < nodeF1.r ∧ 0 < nodeF2.r ∧
    ∀ f ∈ lateralFacesL 16,
      0 < lateralOutwardDot nodeF1 nodeF2
        (create_segment_frustum icoW nodeF1 nodeF2 16) f := by
  have hlen : ¬ segLen nodeF1 nodeF2 < 1e-6 := by rw [segLen_nodeF]; norm_num
  have hr1 : 0 < nodeF1.r := by norm_num [nodeF1]
  have hr2 : 0 < nodeF2.r := by norm_num [nodeF2]
  exact ⟨hlen, hr1, hr2,
    (c2_frustum_faces_and_winding icoW nodeF1 nodeF2 hlen hr1 hr2).2.2.2.2.2⟩

/-! ## The analytic assembler (`generate_mesh_sequential_boolean`)

The Python function seeds the running mesh with a sphere at the root, marks
the root id processed, and recursively walks `get_children`, concatenating a
frustum and a child sphere for every newly seen child before recursing into
it.  `trimesh.primitives.Sphere(radius=n.r, center=(n.x,n.y,n.z))` is an
external call, passed in as `sphere : Node → TriMesh`.  The unbounded Python
recursion is embedded with a fuel argument; each recursive call is made on a
child whose id was just added to the visited set, so fuel
`nodes.length + 1` never runs out (the closure lemmas below carry the
corresponding bound).  The `visits` field records each `(parent, child)`
pair in processing order; it is observational instrumentation and does not
influence the mesh. -/

/-- The mutable state of `generate_mesh_sequential_boolean`'s recursion:
`processed_nodes`, `current_neuron_mesh`, and the instrumented visit log. -/
structure AsmState where
  S : List ℤ
  mesh : TriMesh
  visits : List (Node × Node)

section Assembler

variable (nodes : List Node) (sphere : Node → TriMesh) (ico : ℝ → TriMesh)

/-- `process_node_recursive(parent)`: iterate over the children; skip the ones
already processed; otherwise mark, concatenate frustum and child sphere, and
recurse. -/
noncomputable def asmNode : ℕ → Node → AsmState → AsmState
  | 0, _, st => st
  | fuel + 1, parent, st =>
    (get_children nodes parent).foldl
      (fun acc c =>
        if c.id ∈ acc.S then acc
        else
          asmNode fuel c
            { S := c.id :: acc.S
              mesh := concatTM (concatTM acc.mesh
                (create_segment_frustum ico parent c)) (sphere c)
              visits := acc.visits ++ [(parent, c)] })
      st

/-- The body of the child loop of `asmNode`, named for the proofs. -/
noncomputable def asmStep (fuel : ℕ) (parent : Node) (acc : AsmState) (c : Node) :
    AsmState :=
  if c.id ∈ acc.S then acc
  else
    asmNode nodes sphere ico fuel c
      { S := c.id :: acc.S
        mesh := concatTM (concatTM acc.mesh
          (create_segment_frustum ico parent c)) (sphere c)
        visits := acc.visits ++ [(parent, c)] }

theorem asmNode_zero (parent : Node) (st : AsmState) :
    asmNode nodes sphere ico 0 parent st = st := rfl

theorem asmNode_succ (fuel : ℕ) (parent : Node) (st : AsmState) :
    asmNode nodes sphere ico (fuel + 1) parent st =
      (get_children nodes parent).foldl (asmStep nodes sphere ico fuel parent) st := rfl

/-- How one state of the assembler recursion relates to a later one: the visit
log is extended by some `Δ`, the processed set gains exactly the ids of the
children visited in `Δ` (most recent first), the vertex count grows by the
frustum-plus-sphere contribution of each visit, every visit is a genuine
parent/child pair, and distinctness of the processed set is preserved. -/
def AsmExtends (st st2 : AsmState) : Prop :=
  ∃ Δ : List (Node × Node),
    st2.visits = st.visits ++ Δ ∧
    st2.S = (Δ.map (fun pc => pc.2.id)).reverse ++ st.S ∧
    st2.mesh.vertices.length = st.mesh.vertices.length +
      (Δ.map (fun pc => (create_segment_frustum ico pc.1 pc.2).vertices.length +
        (sphere pc.2).vertices.length)).sum ∧
    (∀ pc ∈ Δ, pc.2 ∈ get_children nodes pc.1) ∧
    (st.S.Nodup → st2.S.Nodup)

theorem asmExtends_refl (st : AsmState) : AsmExtends nodes sphere ico st st :=
  ⟨[], by simp, by simp, by simp, by simp, fun h => h⟩

theorem asmExtends_trans {st1 st2 st3 : AsmState}
    (h12 : AsmExtends nodes sphere ico st1 st2)
    (h23 : AsmExtends nodes sphere ico st2 st3) :
    AsmExtends nodes sphere ico st1 st3 := by
  obtain ⟨d1, hv1, hs1, hm1, hc1, hn1⟩ := h12
  obtain ⟨d2, hv2, hs2, hm2, hc2, hn2⟩ := h23
  refine ⟨d1 ++ d2, ?_, ?_, ?_, ?_, ?_⟩
  · rw [hv2, hv1, List.append_assoc]
  · rw [hs2, hs1, List.map_append, List.reverse_append, List.append_assoc]
  · rw [hm2, hm1, List.map_append, List.sum_append]; ring
  · intro pc hpc
    rcases List.mem_append.mp hpc with h | h
    · exact hc1 pc h
    · exact hc2 pc h
  · exact fun h => hn2 (hn1 h)

theorem asmExtends_S_subset {st st2 : AsmState}
    (h : AsmExtends nodes sphere ico st st2) : ∀ i ∈ st.S, i ∈ st2.S := by
  obtain ⟨d, _, hs, _, _, _⟩ := h
  intro i hi
  rw [hs]
  exact List.mem_append_right _ hi

/-- One fresh visit extends the state by exactly that `(parent, child)`
record. -/
theorem asmExtends_single (parent c : Node) (st : AsmState)
    (hc : c ∈ get_children nodes parent) (hmem : ¬ c.id ∈ st.S) :
    AsmExtends nodes sphere ico st
      { S := c.id :: st.S
        mesh := concatTM (concatTM st.mesh
          (create_segment_frustum ico parent c)) (sphere c)
        visits := st.visits ++ [(parent, c)] } := by
  refine ⟨[(parent, c)], rfl, by simp, ?_, ?_, ?_⟩
  · simp [concatTM_vertices_length]; ring
  · intro pc hpc
    rcases List.mem_singleton.mp hpc with rfl
    exact hc
  · intro h
    exact List.nodup_cons.mpr ⟨hmem, h⟩

/-- The whole recursion only extends the state. -/
theorem asmExtends_node (fuel : ℕ) :
    ∀ (parent : Node) (st : AsmState),
      AsmExtends nodes sphere ico st (asmNode nodes sphere ico fuel parent st) := by
  induction fuel with
  | zero => intro parent st; rw [asmNode_zero]; exact asmExtends_refl nodes sphere ico st
  | succ f ih =>
    intro parent st
    rw [asmNode_succ]
    have key : ∀ (kids : List Node) (st0 : AsmState),
        (∀ c ∈ kids, c ∈ get_children nodes parent) →
        AsmExtends nodes sphere ico st0
          (kids.foldl (asmStep nodes sphere ico f parent) st0) := by
      intro kids
      induction kids with
      | nil => intro st0 _; exact asmExtends_refl nodes sphere ico st0
      | cons c rest ihk =>
        intro st0 hk
        rw [List.foldl_cons]
        have h1 : AsmExtends nodes sphere ico st0
            (asmStep nodes sphere ico f parent st0 c) := by
          rw [asmStep]
          split_ifs with hmem
          · exact asmExtends_refl nodes sphere ico st0
          · exact asmExtends_trans nodes sphere ico
              (asmExtends_single nodes sphere ico parent c st0
                (hk c (List.mem_cons_self _ _)) hmem)
              (ih c _)
        exact asmExtends_trans nodes sphere ico h1
          (ihk _ (fun x hx => hk x (List.mem_cons_of_mem _ hx)))
    exact key (get_children nodes parent) st (fun c hc => hc)

end Assembler

/-! ### Fuel adequacy: counting unprocessed node ids -/

/-- The number of distinct node ids not yet in the processed set. -/
def unvisitedCount (nodes : List Node) (S : List ℤ) : ℕ :=
  ((nodes.map Node.id).toFinset \ S.toFinset).card

theorem unvisitedCount_cons (nodes : List Node) (c : ℤ) (S : List ℤ)
    (hc : c ∈ nodes.map Node.id) (hS : ¬ c ∈ S) :
    unvisitedCount nodes (c :: S) + 1 = unvisitedCount nodes S := by
  unfold unvisitedCount
  have hmem : c ∈ (nodes.map Node.id).toFinset \ S.toFinset := by
    simp [Finset.mem_sdiff, List.mem_toFinset, hc, hS]
  have hset : (nodes.map Node.id).toFinset \ (c :: S).toFinset =
      ((nodes.map Node.id).toFinset \ S.toFinset).erase c := by
    ext x
    simp only [Finset.mem_sdiff, Finset.mem_erase, List.mem_toFinset,
      List.mem_cons]
    tauto
  rw [hset, Finset.card_erase_add_one hmem]

theorem unvisitedCount_anti (nodes : List Node) {S S2 : List ℤ}
    (h : ∀ i ∈ S, i ∈ S2) :
    unvisitedCount nodes S2 ≤ unvisitedCount nodes S := by
  apply Finset.card_le_card
  intro x hx
  rw [Finset.mem_sdiff] at *
  rw [List.mem_toFinset] at *
  exact ⟨hx.1, fun hxS => hx.2 ((List.mem_toFinset).mpr (h x ((List.mem_toFinset).mp hxS)))⟩

theorem unvisitedCount_le (nodes : List Node) (S : List ℤ) :
    unvisitedCount nodes S ≤ nodes.length := by
  calc unvisitedCount nodes S ≤ (nodes.map Node.id).toFinset.card :=
        Finset.card_le_card (Finset.sdiff_subset)
  _ ≤ (nodes.map Node.id).length := (nodes.map Node.id).toFinset_card_le
  _ = nodes.length := List.length_map _ _

/-! ### Closure of the processed set -/

/-- After a sufficiently fuelled call on `parent`, every child of `parent` is
processed, and every node whose id was added during the call has all its
children processed. -/
theorem asm_closure (nodes : List Node) (sphere : Node → TriMesh) (ico : ℝ → TriMesh)
    (fuel : ℕ) :
    ∀ (parent : Node) (st : AsmState),
      unvisitedCount nodes st.S + 1 ≤ fuel →
      (∀ c ∈ get_children nodes parent,
        c.id ∈ (asmNode nodes sphere ico fuel parent st).S) ∧
      (∀ i ∈ (asmNode nodes sphere ico fuel parent st).S, ¬ i ∈ st.S →
        ∃ cc ∈ nodes, cc.id = i ∧
          ∀ k ∈ get_children nodes cc,
            k.id ∈ (asmNode nodes sphere ico fuel parent st).S) := by
  induction fuel with
  | zero => intro parent st h; exact absurd h (by omega)
  | succ f ih =>
    intro parent st hfuel
    rw [asmNode_succ]
    have key : ∀ (kids : List Node) (st0 : AsmState),
        (∀ c ∈ kids, c ∈ get_children nodes parent) →
        unvisitedCount nodes st0.S ≤ f →
        (∀ c ∈ kids,
          c.id ∈ (kids.foldl (asmStep nodes sphere ico f parent) st0).S) ∧
        (∀ i ∈ st0.S,
          i ∈ (kids.foldl (asmStep nodes sphere ico f parent) st0).S) ∧
        (∀ i ∈ (kids.foldl (asmStep nodes sphere ico f parent) st0).S,
          ¬ i ∈ st0.S →
          ∃ cc ∈ nodes, cc.id = i ∧
            ∀ k ∈ get_children nodes cc,
              k.id ∈ (kids.foldl (asmStep nodes sphere ico f parent) st0).S) := by
      intro kids
      induction kids with
      | nil =>
        intro st0 _ _
        refine ⟨by simp, fun i hi => hi, fun i hi hni => absurd hi hni⟩
      | cons c rest ihk =>
        intro st0 hk hU
        rw [List.foldl_cons]
        by_cases hmem : c.id ∈ st0.S
        · have hstep : asmStep nodes sphere ico f parent st0 c = st0 := by
            rw [asmStep, if_pos hmem]
          rw [hstep]
          obtain ⟨k1, k2, k3⟩ :=
            ihk st0 (fun x hx => hk x (List.mem_cons_of_mem _ hx)) hU
          refine ⟨?_, k2, k3⟩
          intro x hx
          rcases List.mem_cons.mp hx with rfl | hx
          · exact k2 _ hmem
          · exact k1 x hx
        · have hcnodes : c ∈ nodes :=
            (List.mem_filter.mp (hk c (List.mem_cons_self _ _))).1
          have hcid : c.id ∈ nodes.map Node.id := List.mem_map_of_mem _ hcnodes
          have hUeq := unvisitedCount_cons nodes c.id st0.S hcid hmem
          set st1 : AsmState :=
            { S := c.id :: st0.S
              mesh := concatTM (concatTM st0.mesh
                (create_segment_frustum ico parent c)) (sphere c)
              visits := st0.visits ++ [(parent, c)] } with hst1
          have hstep : asmStep nodes sphere ico f parent st0 c =
              asmNode nodes sphere ico f c st1 := by
            rw [asmStep, if_neg hmem]
          rw [hstep]
          have hS1 : st1.S = c.id :: st0.S := by rw [hst1]
          have hU1 : unvisitedCount nodes st1.S + 1 ≤ f := by
            rw [hS1]; omega
          obtain ⟨hch, hcl⟩ := ih c st1 hU1
          have hmono1 := asmExtends_S_subset nodes sphere ico
            (asmExtends_node nodes sphere ico f c st1)
          have hUn : unvisitedCount nodes (asmNode nodes sphere ico f c st1).S ≤ f := by
            have h1 := unvisitedCount_anti nodes hmono1
            omega
          obtain ⟨k1, k2, k3⟩ :=
            ihk _ (fun x hx => hk x (List.mem_cons_of_mem _ hx)) hUn
          refine ⟨?_, ?_, ?_⟩
          · intro x hx
            rcases List.mem_cons.mp hx with rfl | hx
            · exact k2 _ (hmono1 _ (by rw [hS1]; exact List.mem_cons_self _ _))
            · exact k1 x hx
          · intro i hi
            exact k2 _ (hmono1 _ (by rw [hS1]; exact List.mem_cons_of_mem _ hi))
          · intro i hifinal hinot
            by_cases hn : i ∈ (asmNode nodes sphere ico f c st1).S
            · by_cases h1 : i ∈ st1.S
              · have hic : i = c.id := by
                  rw [hS1] at h1
                  rcases List.mem_cons.mp h1 with h | h
                  · exact h
                  · exact absurd h hinot
                subst hic
                exact ⟨c, hcnodes, rfl, fun k hkk => k2 _ (hch k hkk)⟩
              · obtain ⟨cc, hccn, hcid2, hkids⟩ := hcl i hn h1
                exact ⟨cc, hccn, hcid2, fun k hkk => k2 _ (hkids k hkk)⟩
            · exact k3 i hifinal hn
    have h0 : unvisitedCount nodes st.S ≤ f := by omega
    obtain ⟨k1, _, k3⟩ := key (get_children nodes parent) st (fun c hc => hc) h0
    exact ⟨k1, k3⟩

/-- The full assembler run: seed mesh = root sphere, processed = `{root.id}`,
then recurse from the root (`generate_mesh_sequential_boolean`). -/
noncomputable def asmRun (sphere : Node → TriMesh) (ico : ℝ → TriMesh)
    (neuron : Neuron) : AsmState :=
  asmNode neuron.nodes sphere ico (neuron.nodes.length + 1) neuron.root_node
    { S := [neuron.root_node.id]
      mesh := sphere neuron.root_node
      visits := [] }

/-- `generate_mesh_sequential_boolean`: the mesh accumulated by the
traversal. -/
noncomputable def generate_mesh_sequential_boolean (sphere : Node → TriMesh)
    (ico : ℝ → TriMesh) (neuron : Neuron) : TriMesh :=
  (asmRun sphere ico neuron).mesh

/-- The parent-to-child edge relation used by the traversal. -/
def childStep (nodes : List Node) (p c : Node) : Prop := c ∈ get_children nodes p

/-- With pairwise distinct ids, a node of the list is determined by its id. -/
theorem node_id_injective (nodes : List Node) (h : (nodes.map Node.id).Nodup) :
    ∀ a ∈ nodes, ∀ b ∈ nodes, a.id = b.id → a = b := by
  induction nodes with
  | nil => intro a ha; cases ha
  | cons x t ih =>
    intro a ha b hb hab
    simp only [List.map_cons, List.nodup_cons] at h
    rcases List.mem_cons.mp ha with ha1 | ha1
    · rcases List.mem_cons.mp hb with hb1 | hb1
      · rw [ha1, hb1]
      · exact absurd (by rw [← ha1, hab]; exact List.mem_map_of_mem _ hb1) h.1
    · rcases List.mem_cons.mp hb with hb1 | hb1
      · exact absurd (by rw [← hb1, ← hab]; exact List.mem_map_of_mem _ ha1) h.1
      · exact ih h.2 a ha1 b hb1 hab

/-- Every node reachable from the root along child edges ends up in the
processed set of the full run. -/
theorem asm_complete (sphere : Node → TriMesh) (ico : ℝ → TriMesh) (nr : Neuron)
    (hrootmem : nr.root_node ∈ nr.nodes)
    (hnodup : (nr.nodes.map Node.id).Nodup) :
    ∀ x : Node, Relation.ReflTransGen (childStep nr.nodes) nr.root_node x →
      x.id ∈ (asmRun sphere ico nr).S ∧ x ∈ nr.nodes := by
  have hfuel : unvisitedCount nr.nodes [nr.root_node.id] + 1 ≤ nr.nodes.length + 1 := by
    have := unvisitedCount_le nr.nodes [nr.root_node.id]
    omega
  obtain ⟨hch, hcl⟩ := asm_closure nr.nodes sphere ico (nr.nodes.length + 1)
    nr.root_node
    { S := [nr.root_node.id], mesh := sphere nr.root_node, visits := [] } hfuel
  have hclosed : ∀ y ∈ nr.nodes, y.id ∈ (asmRun sphere ico nr).S →
      ∀ k ∈ get_children nr.nodes y, k.id ∈ (asmRun sphere ico nr).S := by
    intro y hy hyid k hk
    by_cases hyroot : y.id ∈ [nr.root_node.id]
    · have hyr : y = nr.root_node :=
        node_id_injective nr.nodes hnodup y hy nr.root_node hrootmem
          (by simpa using hyroot)
      exact hch k (hyr ▸ hk)
    · obtain ⟨cc, hccn, hcid, hkids⟩ := hcl y.id hyid hyroot
      have hcy : cc = y := node_id_injective nr.nodes hnodup cc hccn y hy hcid
      exact hkids k (hcy ▸ hk)
  intro x hx
  induction hx with
  | refl =>
    refine ⟨?_, hrootmem⟩
    exact asmExtends_S_subset nr.nodes sphere ico
      (asmExtends_node nr.nodes sphere ico (nr.nodes.length + 1) nr.root_node _)
      _ (List.mem_singleton_self _)
  | tail h1 h2 ihx =>
    rename_i y z
    have hz : z ∈ nr.nodes := (List.mem_filter.mp h2).1
    exact ⟨hclosed y ihx.2 ihx.1 z h2, hz⟩

/-- C7: on a valid tree (distinct ids, root stored among the nodes, every node
reachable from the root), the depth-first traversal of
`generate_mesh_sequential_boolean` visits every node exactly once — the root
plus the visited children are a permutation of the node list — and the
assembled vertex count is the root sphere's plus, per visit, the frustum to
the parent plus the child sphere. -/
theorem c7_assemble_visits_and_vertex_count (sphere : Node → TriMesh)
    (ico : ℝ → TriMesh) (nr : Neuron)
    (hrootmem : nr.root_node ∈ nr.nodes)
    (hnodup : (nr.nodes.map Node.id).Nodup)
    (hreach : ∀ x ∈ nr.nodes,
      Relation.ReflTransGen (childStep nr.nodes) nr.root_node x) :
    (nr.root_node :: (asmRun sphere ico nr).visits.map (fun pc => pc.2)).Perm
      nr.nodes ∧
    (generate_mesh_sequential_boolean sphere ico nr).vertices.length =
      (sphere nr.root_node).vertices.length +
        ((asmRun sphere ico nr).visits.map
          (fun pc => (create_segment_frustum ico pc.1 pc.2).vertices.length +
            (sphere pc.2).vertices.length)).sum := by
  obtain ⟨Δ, hv, hs, hm, hc, hn⟩ :=
    asmExtends_node nr.nodes sphere ico (nr.nodes.length + 1) nr.root_node
      { S := [nr.root_node.id], mesh := sphere nr.root_node, visits := [] }
  have hvis : (asmRun sphere ico nr).visits = Δ := by
    have : (asmRun sphere ico nr).visits = [] ++ Δ := hv
    simpa using this
  have hS : (asmRun sphere ico nr).S =
      (Δ.map (fun pc => pc.2.id)).reverse ++ [nr.root_node.id] := hs
  constructor
  · have hSnodup : (asmRun sphere ico nr).S.Nodup := hn (by simp)
    have hperm1 : ((Δ.map (fun pc => pc.2.id)).reverse ++ [nr.root_node.id]).Perm
        (nr.root_node.id :: Δ.map (fun pc => pc.2.id)) := by
      refine (List.perm_append_singleton _ _).trans ?_
      exact List.Perm.cons _ (List.reverse_perm _)
    have hidsnodup : (nr.root_node.id :: Δ.map (fun pc => pc.2.id)).Nodup :=
      (hperm1.nodup_iff).mp (hS ▸ hSnodup)
    have hmapids : (nr.root_node :: Δ.map (fun pc => pc.2)).map Node.id =
        nr.root_node.id :: Δ.map (fun pc => pc.2.id) := by
      simp [List.map_map, Function.comp]
    have hlnodup : (nr.root_node :: Δ.map (fun pc => pc.2)).Nodup := by
      apply List.Nodup.of_map Node.id
      rw [hmapids]
      exact hidsnodup
    have hnodesnodup : nr.nodes.Nodup := List.Nodup.of_map Node.id hnodup
    rw [hvis]
    rw [List.perm_ext_iff_of_nodup hlnodup hnodesnodup]
    intro x
    constructor
    · intro hx
      rcases List.mem_cons.mp hx with rfl | hx
      · exact hrootmem
      · obtain ⟨pc, hpc, hpcx⟩ := List.mem_map.mp hx
        have := hc pc hpc
        rw [← hpcx]
        exact (List.mem_filter.mp this).1
    · intro hx
      have hxid := (asm_complete sphere ico nr hrootmem hnodup x (hreach x hx)).1
      rw [hS] at hxid
      rcases List.mem_append.mp hxid with hxid | hxid
    -- added: x.id is some visited child's id
      · rw [List.mem_reverse] at hxid
        obtain ⟨pc, hpc, hpcx⟩ := List.mem_map.mp hxid
        have hpc2 : pc.2 ∈ nr.nodes := (List.mem_filter.mp (hc pc hpc)).1
        have : pc.2 = x := node_id_injective nr.nodes hnodup pc.2 hpc2 x hx hpcx
        exact List.mem_cons_of_mem _ (List.mem_map.mpr ⟨pc, hpc, this⟩)
      · have : x = nr.root_node :=
          node_id_injective nr.nodes hnodup x hx nr.root_node hrootmem
            (by simpa using hxid)
        rw [this]
        exact List.mem_cons_self _ _
  · rw [generate_mesh_sequential_boolean, hvis]
    simpa using hm

/-! ### `topo_sort` (`neuron.py`) and the traversal order -/

/-- State of `Neuron.topo_sort`: `seen_ids` and `sorted_nodes`. -/
structure TopoState where
  seen : List ℤ
  sorted : List Node

/-- `add_recurse(node)` inside `Neuron.topo_sort`: append each unseen child
and recurse into it. -/
def topoNode (nodes : List Node) : ℕ → Node → TopoState → TopoState
  | 0, _, st => st
  | fuel + 1, parent, st =>
    (get_children nodes parent).foldl
      (fun acc c =>
        if c.id ∈ acc.seen then acc
        else topoNode nodes fuel c
          { seen := c.id :: acc.seen, sorted := acc.sorted ++ [c] })
      st

/-- `Neuron.topo_sort`: the canonical depth-first order, starting from the
root. -/
def topo_sort (neuron : Neuron) : List Node :=
  (topoNode neuron.nodes (neuron.nodes.length + 1) neuron.root_node
    { seen := [neuron.root_node.id], sorted := [neuron.root_node] }).sorted

/-- The assembler and `topo_sort` run in lockstep: from states with the same
visited set they compute the same visited set, and the nodes `topo_sort`
appends are exactly the children the assembler visits, in the same order. -/
theorem asm_topo_lockstep (nodes : List Node) (sphere : Node → TriMesh)
    (ico : ℝ → TriMesh) (fuel : ℕ) :
    ∀ (parent : Node) (stA : AsmState) (stT : TopoState), stA.S = stT.seen →
      (asmNode nodes sphere ico fuel parent stA).S =
        (topoNode nodes fuel parent stT).seen ∧
      ∃ Δ : List (Node × Node),
        (asmNode nodes sphere ico fuel parent stA).visits = stA.visits ++ Δ ∧
        (topoNode nodes fuel parent stT).sorted =
          stT.sorted ++ Δ.map (fun pc => pc.2) := by
  induction fuel with
  | zero =>
    intro parent stA stT hS
    exact ⟨hS, [], by rw [asmNode_zero]; simp,
      by rw [show topoNode nodes 0 parent stT = stT from rfl]; simp⟩
  | succ f ih =>
    intro parent stA stT hS
    rw [asmNode_succ, topoNode]
    have key : ∀ (kids : List Node) (stA0 : AsmState) (stT0 : TopoState),
        stA0.S = stT0.seen →
        (kids.foldl (asmStep nodes sphere ico f parent) stA0).S =
          (kids.foldl
            (fun acc c =>
              if c.id ∈ acc.seen then acc
              else topoNode nodes f c
                { seen := c.id :: acc.seen, sorted := acc.sorted ++ [c] })
            stT0).seen ∧
        ∃ Δ : List (Node × Node),
          (kids.foldl (asmStep nodes sphere ico f parent) stA0).visits =
            stA0.visits ++ Δ ∧
          (kids.foldl
            (fun acc c =>
              if c.id ∈ acc.seen then acc
              else topoNode nodes f c
                { seen := c.id :: acc.seen, sorted := acc.sorted ++ [c] })
            stT0).sorted = stT0.sorted ++ Δ.map (fun pc => pc.2) := by
      intro kids
      induction kids with
      | nil =>
        intro stA0 stT0 h0
        exact ⟨h0, [], by simp, by simp⟩
      | cons c rest ihk =>
        intro stA0 stT0 h0
        rw [List.foldl_cons, List.foldl_cons]
        by_cases hmem : c.id ∈ stA0.S
        · have hmemT : c.id ∈ stT0.seen := h0 ▸ hmem
          have hstepA : asmStep nodes sphere ico f parent stA0 c = stA0 := by
            rw [asmStep, if_pos hmem]
          rw [hstepA, if_pos hmemT]
          exact ihk stA0 stT0 h0
        · have hmemT : ¬ c.id ∈ stT0.seen := h0 ▸ hmem
          have hstepA : asmStep nodes sphere ico f parent stA0 c =
              asmNode nodes sphere ico f c
                { S := c.id :: stA0.S
                  mesh := concatTM (concatTM stA0.mesh
                    (create_segment_frustum ico parent c)) (sphere c)
                  visits := stA0.visits ++ [(parent, c)] } := by
            rw [asmStep, if_neg hmem]
          rw [hstepA, if_neg hmemT]
          obtain ⟨hSn, Δ1, hv1, hs1⟩ := ih c
            { S := c.id :: stA0.S
              mesh := concatTM (concatTM stA0.mesh
                (create_segment_frustum ico parent c)) (sphere c)
              visits := stA0.visits ++ [(parent, c)] }
            { seen := c.id :: stT0.seen, sorted := stT0.sorted ++ [c] }
            (by simp [h0])
          obtain ⟨hSr, Δ2, hv2, hs2⟩ := ihk _ _ hSn
          refine ⟨hSr, (parent, c) :: (Δ1 ++ Δ2), ?_, ?_⟩
          · rw [hv2, hv1]
            simp
          · rw [hs2, hs1]
            simp

    exact key (get_children nodes parent) stA stT hS

/-- C8: the assembler output is a pure function of the stored node list and
root: two runs on equal trees (with the child order that `get_children`
derives from the stored node order, hence the same traversal order) produce
byte-identical vertex and face buffers.  Moreover the traversal order is the
canonical one: the root followed by the visited children is exactly
`topo_sort`. -/
theorem c8_deterministic_buffers (sphere : Node → TriMesh) (ico : ℝ → TriMesh)
    (a b : Neuron) (h1 : a.nodes = b.nodes) (h2 : a.root_node = b.root_node) :
    ((generate_mesh_sequential_boolean sphere ico a).vertices =
      (generate_mesh_sequential_boolean sphere ico b).vertices ∧
    (generate_mesh_sequential_boolean sphere ico a).faces =
      (generate_mesh_sequential_boolean sphere ico b).faces) ∧
    a.root_node :: (asmRun sphere ico a).visits.map (fun pc => pc.2) =
      topo_sort a := by
  constructor
  · cases a; cases b
    cases h1; cases h2
    exact ⟨rfl, rfl⟩
  · obtain ⟨_, Δ, hv, hs⟩ := asm_topo_lockstep a.nodes sphere ico
      (a.nodes.length + 1) a.root_node
      { S := [a.root_node.id], mesh := sphere a.root_node, visits := [] }
      { seen := [a.root_node.id], sorted := [a.root_node] } rfl
    have hvis : (asmRun sphere ico a).visits = Δ := by simpa using hv
    rw [topo_sort, hs, hvis]
    simp

/-- A two-node neuron used as the C7/C8 witness: a root and one child. -/
noncomputable def rootW : Node := ⟨1, 1, 0, 0, 0, 1, -1⟩

/-- The child node of the witness neuron. -/
noncomputable def childW : Node := ⟨2, 1, 5, 0, 0, 1, 1⟩

/-- The witness neuron. -/
noncomputable def neuronW : Neuron := ⟨[rootW, childW], rootW⟩

/-- A concrete stand-in for `trimesh.primitives.Sphere` used in witnesses. -/
noncomputable def sphereW : Node → TriMesh := fun n => ⟨[n.pos], []⟩

theorem c8_deterministic_buffers_witness :
    neuronW.nodes = neuronW.nodes ∧ neuronW.root_node = neuronW.root_node ∧
    (((generate_mesh_sequential_boolean sphereW icoW neuronW).vertices =
      (generate_mesh_sequential_boolean sphereW icoW neuronW).vertices ∧
    (generate_mesh_sequential_boolean sphereW icoW neuronW).faces =
      (generate_mesh_sequential_boolean sphereW icoW neuronW).faces) ∧
    neuronW.root_node :: (asmRun sphereW icoW neuronW).visits.map (fun pc => pc.2) =
      topo_sort neuronW) :=
  ⟨rfl, rfl, c8_deterministic_buffers sphereW icoW neuronW neuronW rfl rfl⟩

theorem c7_assemble_visits_and_vertex_count_witness :
    (rootW ∈ neuronW.nodes ∧ (neuronW.nodes.map Node.id).Nodup) ∧
    (neuronW.root_node :: (asmRun sphereW icoW neuronW).visits.map (fun pc => pc.2)).Perm
      neuronW.nodes ∧
    (generate_mesh_sequential_boolean sphereW icoW neuronW).vertices.length =
      (sphereW neuronW.root_node).vertices.length +
        ((asmRun sphereW icoW neuronW).visits.map
          (fun pc => (create_segment_frustum icoW pc.1 pc.2).vertices.length +
            (sphereW pc.2).vertices.length)).sum := by
  have hmem : neuronW.root_node ∈ neuronW.nodes := by
    simp [neuronW]
  have hnodup : (neuronW.nodes.map Node.id).Nodup := by
    simp [neuronW, rootW, childW]
  have hreach : ∀ x ∈ neuronW.nodes,
      Relation.ReflTransGen (childStep neuronW.nodes) neuronW.root_node x := by
    intro x hx
    rcases List.mem_cons.mp hx with rfl | hx
    · exact Relation.ReflTransGen.refl
    · rcases List.mem_singleton.mp hx with rfl
      refine Relation.ReflTransGen.single ?_
      simp [childStep, get_children, neuronW, rootW, childW, List.filter]
  exact ⟨⟨by simp [neuronW], hnodup⟩,
    c7_assemble_visits_and_vertex_count sphereW icoW neuronW hmem hnodup hreach⟩

/-! ## The volumetric primitive builder (`mesh_generator_pv.py`,
`create_pyvista_primitives`)

The traversal mirrors the analytic assembler but with two extra guards: a
segment whose average radius is below `1e-6` marks the child processed and
`continue`s — no tube, no recursion — and a tube is only appended when the
centers are farther apart than `1e-6` and the library tube filter returns a
nonempty mesh (`tube.n_points > 0`, modelled by the oracle `tubeNE`; a tube
creation exception, caught with a warning in the source, behaves the same as
an empty tube).  The generated primitives are recorded as events (`soma` or
`tube parent child`); their pyvista geometry is library-side.  The `R` field
records the nodes the traversal recursed into. -/

/-- A primitive generation event of `create_pyvista_primitives`. -/
inductive PvPrim where
  | soma (n : Node)
  | tube (p c : Node)

/-- State of the `create_pyvista_primitives` traversal: `processed_nodes`,
the primitive events, and (instrumentation) the nodes recursed into. -/
structure PvState where
  S : List ℤ
  prims : List PvPrim
  R : List Node

/-- `process_node_recursive(parent)` of `create_pyvista_primitives`. -/
noncomputable def pvNode (nodes : List Node) (tubeNE : Node → Node → Bool) :
    ℕ → Node → PvState → PvState
  | 0, _, st => st
  | fuel + 1, parent, st =>
    (get_children nodes parent).foldl
      (fun acc c =>
        if c.id ∈ acc.S then acc
        else if (parent.r + c.r) / 2 < 1e-6 then
          { acc with S := c.id :: acc.S }
        else
          let acc2 := if 1e-6 < segLen parent c ∧ tubeNE parent c then
              { acc with prims := acc.prims ++ [PvPrim.tube parent c] }
            else acc
          pvNode nodes tubeNE fuel c
            { S := c.id :: acc2.S, prims := acc2.prims, R := acc2.R ++ [c] })
      st

/-- The loop body of `pvNode`, named for the proofs. -/
noncomputable def pvStep (nodes : List Node) (tubeNE : Node → Node → Bool)
    (fuel : ℕ) (parent : Node) (acc : PvState) (c : Node) : PvState :=
  if c.id ∈ acc.S then acc
  else if (parent.r + c.r) / 2 < 1e-6 then
    { acc with S := c.id :: acc.S }
  else
    let acc2 := if 1e-6 < segLen parent c ∧ tubeNE parent c then
        { acc with prims := acc.prims ++ [PvPrim.tube parent c] }
      else acc
    pvNode nodes tubeNE fuel c
      { S := c.id :: acc2.S, prims := acc2.prims, R := acc2.R ++ [c] }

theorem pvNode_zero (nodes : List Node) (tubeNE : Node → Node → Bool)
    (parent : Node) (st : PvState) : pvNode nodes tubeNE 0 parent st = st := rfl

theorem pvNode_succ (nodes : List Node) (tubeNE : Node → Node → Bool)
    (fuel : ℕ) (parent : Node) (st : PvState) :
    pvNode nodes tubeNE (fuel + 1) parent st =
      (get_children nodes parent).foldl (pvStep nodes tubeNE fuel parent) st := rfl

/-- The full primitive-building run of `create_pyvista_primitives`: soma
sphere for the root, root marked processed, then the recursion from the
root. -/
noncomputable def pvRun (tubeNE : Node → Node → Bool) (neuron : Neuron) : PvState :=
  pvNode neuron.nodes tubeNE (neuron.nodes.length + 1) neuron.root_node
    { S := [neuron.root_node.id]
      prims := [PvPrim.soma neuron.root_node]
      R := [neuron.root_node] }

/-- The primitive events generated by `create_pyvista_primitives`. -/
noncomputable def create_pyvista_primitives (tubeNE : Node → Node → Bool)
    (neuron : Neuron) : List PvPrim :=
  (pvRun tubeNE neuron).prims

/-- Soundness invariant of the traversal: recursed-into nodes are nodes of the
tree and were entered — root apart — through an edge whose average radius is
at least `1e-6`; every recorded tube joins a recursed parent to a recursed
child along such an edge with distinct enough centers. -/
def PvSound (nodes : List Node) (root : Node) (st : PvState) : Prop :=
  (∀ x ∈ st.R, x ∈ nodes) ∧
  (∀ x ∈ st.R, x = root ∨ ∃ p, p ∈ st.R ∧ x ∈ get_children nodes p ∧
    ¬ (p.r + x.r) / 2 < 1e-6) ∧
  (∀ p c : Node, PvPrim.tube p c ∈ st.prims →
    p ∈ st.R ∧ c ∈ st.R ∧ c ∈ get_children nodes p ∧
    ¬ (p.r + c.r) / 2 < 1e-6 ∧ 1e-6 < segLen p c)

/-- `pvNode` preserves `PvSound` and only grows the recursion log and the
primitive list. -/
theorem pv_sound_node (nodes : List Node) (root : Node)
    (tubeNE : Node → Node → Bool) (fuel : ℕ) :
    ∀ (parent : Node) (st : PvState), parent ∈ st.R →
      PvSound nodes root st →
      PvSound nodes root (pvNode nodes tubeNE fuel parent st) ∧
      (∀ x ∈ st.R, x ∈ (pvNode nodes tubeNE fuel parent st).R) ∧
      (∀ pr ∈ st.prims, pr ∈ (pvNode nodes tubeNE fuel parent st).prims) := by
  induction fuel with
  | zero =>
    intro parent st _ hsound
    rw [pvNode_zero]
    exact ⟨hsound, fun x hx => hx, fun pr hpr => hpr⟩
  | succ f ih =>
    intro parent st hparent hsound
    rw [pvNode_succ]
    have key : ∀ (kids : List Node) (st0 : PvState),
        (∀ c ∈ kids, c ∈ get_children nodes parent) →
        parent ∈ st0.R → PvSound nodes root st0 →
        PvSound nodes root (kids.foldl (pvStep nodes tubeNE f parent) st0) ∧
        (∀ x ∈ st0.R, x ∈ (kids.foldl (pvStep nodes tubeNE f parent) st0).R) ∧
        (∀ pr ∈ st0.prims,
          pr ∈ (kids.foldl (pvStep nodes tubeNE f parent) st0).prims) := by
      intro kids
      induction kids with
      | nil =>
        intro st0 _ _ hsound0
        exact ⟨hsound0, fun x hx => hx, fun pr hpr => hpr⟩
      | cons c rest ihk =>
        intro st0 hk hparent0 hsound0
        rw [List.foldl_cons]
        have hcch : c ∈ get_children nodes parent := hk c (List.mem_cons_self _ _)
        have hcnodes : c ∈ nodes := (List.mem_filter.mp hcch).1
        by_cases hmem : c.id ∈ st0.S
        · have hstep : pvStep nodes tubeNE f parent st0 c = st0 := by
            rw [pvStep, if_pos hmem]
          rw [hstep]
          exact ihk st0 (fun x hx => hk x (List.mem_cons_of_mem _ hx)) hparent0 hsound0
        · by_cases havg : (parent.r + c.r) / 2 < 1e-6
          · have hstep : pvStep nodes tubeNE f parent st0 c =
                { st0 with S := c.id :: st0.S } := by
              rw [pvStep, if_neg hmem, if_pos havg]
            rw [hstep]
            -- S is not mentioned by the invariant
            have hs1 : PvSound nodes root { st0 with S := c.id :: st0.S } := hsound0
            exact ihk _ (fun x hx => hk x (List.mem_cons_of_mem _ hx)) hparent0 hs1
          · -- fresh child with usable radius: maybe tube, then recurse
            set acc2 : PvState :=
              if 1e-6 < segLen parent c ∧ tubeNE parent c then
                { st0 with prims := st0.prims ++ [PvPrim.tube parent c] }
              else st0 with hacc2
            set st1 : PvState :=
              { S := c.id :: acc2.S, prims := acc2.prims, R := acc2.R ++ [c] }
              with hst1
            have hstep : pvStep nodes tubeNE f parent st0 c =
                pvNode nodes tubeNE f c st1 := by
              rw [pvStep, if_neg hmem, if_neg havg]
            rw [hstep]
            have hacc2R : acc2.R = st0.R := by
              rw [hacc2]; split_ifs <;> rfl
            have hacc2prims : acc2.prims = st0.prims ∨
                acc2.prims = st0.prims ++ [PvPrim.tube parent c] ∧
                  (1e-6 < segLen parent c ∧ tubeNE parent c) := by
              rw [hacc2]; split_ifs with hcond
              · exact Or.inr ⟨rfl, hcond⟩
              · exact Or.inl rfl
            have hR1 : st1.R = st0.R ++ [c] := by rw [hst1, hacc2R]
            have hcR1 : c ∈ st1.R := by rw [hR1]; simp
            have hparent1 : parent ∈ st1.R := by
              rw [hR1]; exact List.mem_append_left _ hparent0
            have hsound1 : PvSound nodes root st1 := by
              obtain ⟨hs1, hs2, hs3⟩ := hsound0
              refine ⟨?_, ?_, ?_⟩
              · intro x hx
                rw [hR1] at hx
                rcases List.mem_append.mp hx with hx | hx
                · exact hs1 x hx
                · rw [List.mem_singleton.mp hx]; exact hcnodes
              · intro x hx
                rw [hR1] at hx
                rcases List.mem_append.mp hx with hx | hx
                · rcases hs2 x hx with h | ⟨p, hpR, hpc, hpr⟩
                  · exact Or.inl h
                  · exact Or.inr ⟨p, by rw [hR1]; exact List.mem_append_left _ hpR,
                      hpc, hpr⟩
                · rw [List.mem_singleton.mp hx]
                  exact Or.inr ⟨parent, hparent1, hcch, havg⟩
              · intro p cc hpc
                have hprims1 : st1.prims = acc2.prims := by rw [hst1]
                rw [hprims1] at hpc
                rcases hacc2prims with hpr | ⟨hpr, hcond⟩
                · rw [hpr] at hpc
                  obtain ⟨t1, t2, t3, t4, t5⟩ := hs3 p cc hpc
                  exact ⟨by rw [hR1]; exact List.mem_append_left _ t1,
                    by rw [hR1]; exact List.mem_append_left _ t2, t3, t4, t5⟩
                · rw [hpr] at hpc
                  rcases List.mem_append.mp hpc with hpc | hpc
                  · obtain ⟨t1, t2, t3, t4, t5⟩ := hs3 p cc hpc
                    exact ⟨by rw [hR1]; exact List.mem_append_left _ t1,
                      by rw [hR1]; exact List.mem_append_left _ t2, t3, t4, t5⟩
                  · have heq := List.mem_singleton.mp hpc
                    cases heq
                    exact ⟨hparent1, hcR1, hcch, havg, hcond.1⟩
            obtain ⟨hsoundN, hRmonoN, hprimsN⟩ := ih c st1 hcR1 hsound1
            obtain ⟨hsoundF, hRmonoF, hprimsF⟩ :=
              ihk (pvNode nodes tubeNE f c st1)
                (fun x hx => hk x (List.mem_cons_of_mem _ hx))
                (hRmonoN parent hparent1) hsoundN
            refine ⟨hsoundF, ?_, ?_⟩
            · intro x hx
              exact hRmonoF x (hRmonoN x (by rw [hR1]; exact List.mem_append_left _ hx))
            · intro pr hpr
              have hpr1 : pr ∈ st1.prims := by
                rw [hst1]
                rcases hacc2prims with h | ⟨h, _⟩
                · rw [h]; exact hpr
                · rw [h]; exact List.mem_append_left _ hpr
              exact hprimsF pr (hprimsN pr hpr1)
    exact key (get_children nodes parent) st (fun c hc => hc) hparent hsound

/-- Closure for the volumetric traversal: with adequate fuel, every child of
the called-on node gets its id processed, and so does every child of every
node the call recursed into. -/
theorem pv_closure (nodes : List Node) (tubeNE : Node → Node → Bool) (fuel : ℕ) :
    ∀ (parent : Node) (st : PvState),
      unvisitedCount nodes st.S + 1 ≤ fuel →
      (∀ c ∈ get_children nodes parent,
        c.id ∈ (pvNode nodes tubeNE fuel parent st).S) ∧
      (∀ i ∈ st.S, i ∈ (pvNode nodes tubeNE fuel parent st).S) ∧
      (∀ x ∈ (pvNode nodes tubeNE fuel parent st).R, ¬ x ∈ st.R →
        ∀ k ∈ get_children nodes x,
          k.id ∈ (pvNode nodes tubeNE fuel parent st).S) := by
  induction fuel with
  | zero => intro parent st h; exact absurd h (by omega)
  | succ f ih =>
    intro parent st hfuel
    rw [pvNode_succ]
    have key : ∀ (kids : List Node) (st0 : PvState),
        (∀ c ∈ kids, c ∈ get_children nodes parent) →
        unvisitedCount nodes st0.S ≤ f →
        (∀ c ∈ kids,
          c.id ∈ (kids.foldl (pvStep nodes tubeNE f parent) st0).S) ∧
        (∀ i ∈ st0.S, i ∈ (kids.foldl (pvStep nodes tubeNE f parent) st0).S) ∧
        (∀ x ∈ (kids.foldl (pvStep nodes tubeNE f parent) st0).R, ¬ x ∈ st0.R →
          ∀ k ∈ get_children nodes x,
            k.id ∈ (kids.foldl (pvStep nodes tubeNE f parent) st0).S) := by
      intro kids
      induction kids with
      | nil =>
        intro st0 _ _
        exact ⟨by simp, fun i hi => hi, fun x hx hnx => absurd hx hnx⟩
      | cons c rest ihk =>
        intro st0 hk hU
        rw [List.foldl_cons]
        have hcch : c ∈ get_children nodes parent := hk c (List.mem_cons_self _ _)
        have hcnodes : c ∈ nodes := (List.mem_filter.mp hcch).1
        have hcid : c.id ∈ nodes.map Node.id := List.mem_map_of_mem _ hcnodes
        by_cases hmem : c.id ∈ st0.S
        · have hstep : pvStep nodes tubeNE f parent st0 c = st0 := by
            rw [pvStep, if_pos hmem]
          rw [hstep]
          obtain ⟨k1, k2, k3⟩ :=
            ihk st0 (fun x hx => hk x (List.mem_cons_of_mem _ hx)) hU
          refine ⟨?_, k2, k3⟩
          intro x hx
          rcases List.mem_cons.mp hx with rfl | hx
          · exact k2 _ hmem
          · exact k1 x hx
        · by_cases havg : (parent.r + c.r) / 2 < 1e-6
          · have hstep : pvStep nodes tubeNE f parent st0 c =
                { st0 with S := c.id :: st0.S } := by
              rw [pvStep, if_neg hmem, if_pos havg]
            rw [hstep]
            have hU1 : unvisitedCount nodes
                (PvState.S { st0 with S := c.id :: st0.S }) ≤ f := by
              have := unvisitedCount_cons nodes c.id st0.S hcid hmem
              simp only []
              omega
            obtain ⟨k1, k2, k3⟩ :=
              ihk _ (fun x hx => hk x (List.mem_cons_of_mem _ hx)) hU1
            refine ⟨?_, ?_, ?_⟩
            · intro x hx
              rcases List.mem_cons.mp hx with rfl | hx
              · exact k2 _ (List.mem_cons_self _ _)
              · exact k1 x hx
            · intro i hi
              exact k2 _ (List.mem_cons_of_mem _ hi)
            · intro x hx hnx
              exact k3 x hx hnx
          · set acc2 : PvState :=
              if 1e-6 < segLen parent c ∧ tubeNE parent c then
                { st0 with prims := st0.prims ++ [PvPrim.tube parent c] }
              else st0 with hacc2
            set st1 : PvState :=
              { S := c.id :: acc2.S, prims := acc2.prims, R := acc2.R ++ [c] }
              with hst1
            have hstep : pvStep nodes tubeNE f parent st0 c =
                pvNode nodes tubeNE f c st1 := by
              rw [pvStep, if_neg hmem, if_neg havg]
            rw [hstep]
            have hacc2S : acc2.S = st0.S := by
              rw [hacc2]; split_ifs <;> rfl
            have hacc2R : acc2.R = st0.R := by
              rw [hacc2]; split_ifs <;> rfl
            have hS1 : st1.S = c.id :: st0.S := by rw [hst1, hacc2S]
            have hR1 : st1.R = st0.R ++ [c] := by rw [hst1, hacc2R]
            have hU1 : unvisitedCount nodes st1.S + 1 ≤ f := by
              have := unvisitedCount_cons nodes c.id st0.S hcid hmem
              rw [hS1]
              omega
            obtain ⟨nch, nmono, ncl⟩ := ih c st1 hU1
            have hUn : unvisitedCount nodes (pvNode nodes tubeNE f c st1).S ≤ f := by
              have h1 := unvisitedCount_anti nodes nmono
              omega
            obtain ⟨k1, k2, k3⟩ :=
              ihk (pvNode nodes tubeNE f c st1)
                (fun x hx => hk x (List.mem_cons_of_mem _ hx)) hUn
            refine ⟨?_, ?_, ?_⟩
            · intro x hx
              rcases List.mem_cons.mp hx with rfl | hx
              · exact k2 _ (nmono _ (by rw [hS1]; exact List.mem_cons_self _ _))
              · exact k1 x hx
            · intro i hi
              exact k2 _ (nmono _ (by rw [hS1]; exact List.mem_cons_of_mem _ hi))
            · intro x hx hnx k hkk
              by_cases hxn : x ∈ (pvNode nodes tubeNE f c st1).R
              · by_cases hx1 : x ∈ st1.R
                · have hxc : x = c := by
                    rw [hR1] at hx1
                    rcases List.mem_append.mp hx1 with h | h
                    · exact absurd h hnx
                    · exact List.mem_singleton.mp h
                  subst hxc
                  exact k2 _ (nch k hkk)
                · exact k2 _ (ncl x hxn hx1 k hkk)
              · exact k3 x hx hxn k hkk
    have h0 : unvisitedCount nodes st.S ≤ f := by omega
    obtain ⟨k1, k2, k3⟩ := key (get_children nodes parent) st (fun c hc => hc) h0
    exact ⟨k1, k2, k3⟩

/-- The root of a valid tree is nobody's child. -/
theorem root_not_child (nodes : List Node) (root : Node)
    (hrootp : ¬ root.parent_id ∈ nodes.map Node.id) :
    ∀ q ∈ nodes, ¬ root ∈ get_children nodes q := by
  intro q hq hrc
  have hpred := (List.mem_filter.mp hrc).2
  have heq : root.parent_id = q.id := by simpa using hpred
  exact hrootp (heq ▸ List.mem_map_of_mem _ hq)

/-- A node has at most one parent among the nodes. -/
theorem parent_unique (nodes : List Node) (hnodup : (nodes.map Node.id).Nodup)
    (p q c : Node) (hp : p ∈ nodes) (hq : q ∈ nodes)
    (hcp : c ∈ get_children nodes p) (hcq : c ∈ get_children nodes q) : p = q := by
  have h1 : c.parent_id = p.id := by simpa using (List.mem_filter.mp hcp).2
  have h2 : c.parent_id = q.id := by simpa using (List.mem_filter.mp hcq).2
  exact node_id_injective nodes hnodup p hp q hq (h1 ▸ h2)

/-- Once a sub-threshold segment `(p, c)` exists, neither `c` nor any of its
descendants is ever recursed into. -/
theorem pv_subtree_not_recursed (tubeNE : Node → Node → Bool) (nr : Neuron)
    (hrootmem : nr.root_node ∈ nr.nodes)
    (hnodup : (nr.nodes.map Node.id).Nodup)
    (hrootp : ¬ nr.root_node.parent_id ∈ nr.nodes.map Node.id)
    (p c : Node) (hp : p ∈ nr.nodes) (hc : c ∈ get_children nr.nodes p)
    (havg : (p.r + c.r) / 2 < 1e-6) :
    ∀ d : Node, Relation.ReflTransGen (childStep nr.nodes) c d →
      ¬ d ∈ (pvRun tubeNE nr).R ∧ d ∈ nr.nodes := by
  have hsound0 : PvSound nr.nodes nr.root_node
      { S := [nr.root_node.id]
        prims := [PvPrim.soma nr.root_node]
        R := [nr.root_node] } := by
    refine ⟨?_, ?_, ?_⟩
    · intro x hx
      rw [List.mem_singleton.mp hx]; exact hrootmem
    · intro x hx
      exact Or.inl (List.mem_singleton.mp hx)
    · intro pp cc hpc
      exact absurd (List.mem_singleton.mp hpc) (by simp)
  have hsound : PvSound nr.nodes nr.root_node (pvRun tubeNE nr) :=
    (pv_sound_node nr.nodes nr.root_node tubeNE (nr.nodes.length + 1)
      nr.root_node _ (List.mem_singleton_self _) hsound0).1
  obtain ⟨hRn, hRs, _⟩ := hsound
  intro d hd
  induction hd with
  | refl =>
    refine ⟨?_, (List.mem_filter.mp hc).1⟩
    intro hcR
    rcases hRs c hcR with hcr | ⟨q, hqR, hcq, hqr⟩
    · exact root_not_child nr.nodes nr.root_node hrootp p hp (hcr ▸ hc)
    · have hqp : q = p :=
        parent_unique nr.nodes hnodup q p c (hRn q hqR) hp hcq hc
      exact hqr (hqp ▸ havg)
  | tail h1 h2 ihd =>
    rename_i y z
    refine ⟨?_, (List.mem_filter.mp h2).1⟩
    intro hzR
    rcases hRs z hzR with hzr | ⟨q, hqR, hzq, hqr⟩
    · exact root_not_child nr.nodes nr.root_node hrootp y ihd.2 (hzr ▸ h2)
    · have hqy : q = y :=
        parent_unique nr.nodes hnodup q y z (hRn q hqR) ihd.2 hzq h2
      exact ihd.1 (hqy ▸ hqR)

/-- C10: in `create_pyvista_primitives`, a parent-to-child segment whose
average radius is below `1e-6` marks the child processed without recursing
into it, and no tube primitive is generated for that segment nor for any
segment ending in the child or one of its descendants — the whole subtree is
silently excluded. -/
theorem c10_thin_segment_excludes_subtree (tubeNE : Node → Node → Bool)
    (nr : Neuron)
    (hrootmem : nr.root_node ∈ nr.nodes)
    (hnodup : (nr.nodes.map Node.id).Nodup)
    (hrootp : ¬ nr.root_node.parent_id ∈ nr.nodes.map Node.id)
    (p c : Node) (hp : p ∈ nr.nodes) (hc : c ∈ get_children nr.nodes p)
    (havg : (p.r + c.r) / 2 < 1e-6) :
    (p ∈ (pvRun tubeNE nr).R → c.id ∈ (pvRun tubeNE nr).S) ∧
    ¬ c ∈ (pvRun tubeNE nr).R ∧
    ∀ d : Node, Relation.ReflTransGen (childStep nr.nodes) c d →
      ∀ a : Node, ¬ PvPrim.tube a d ∈ create_pyvista_primitives tubeNE nr := by
  have hfuel : unvisitedCount nr.nodes [nr.root_node.id] + 1 ≤
      nr.nodes.length + 1 := by
    have := unvisitedCount_le nr.nodes [nr.root_node.id]
    omega
  obtain ⟨cl1, _, cl3⟩ := pv_closure nr.nodes tubeNE (nr.nodes.length + 1)
    nr.root_node
    { S := [nr.root_node.id]
      prims := [PvPrim.soma nr.root_node]
      R := [nr.root_node] } hfuel
  have hsound0 : PvSound nr.nodes nr.root_node
      { S := [nr.root_node.id]
        prims := [PvPrim.soma nr.root_node]
        R := [nr.root_node] } := by
    refine ⟨?_, ?_, ?_⟩
    · intro x hx
      rw [List.mem_singleton.mp hx]; exact hrootmem
    · intro x hx
      exact Or.inl (List.mem_singleton.mp hx)
    · intro pp cc hpc
      exact absurd (List.mem_singleton.mp hpc) (by simp)
  have hsound : PvSound nr.nodes nr.root_node (pvRun tubeNE nr) :=
    (pv_sound_node nr.nodes nr.root_node tubeNE (nr.nodes.length + 1)
      nr.root_node _ (List.mem_singleton_self _) hsound0).1
  refine ⟨?_, ?_, ?_⟩
  · intro hpR
    by_cases hproot : p = nr.root_node
    · exact cl1 c (hproot ▸ hc)
    · refine cl3 p hpR ?_ c hc
      intro hmem
      exact hproot (List.mem_singleton.mp hmem)
  · exact (pv_subtree_not_recursed tubeNE nr hrootmem hnodup hrootp p c hp hc havg
      c Relation.ReflTransGen.refl).1
  · intro d hd a htube
    obtain ⟨_, hdR, _⟩ := hsound.2.2 a d htube
    exact (pv_subtree_not_recursed tubeNE nr hrootmem hnodup hrootp p c hp hc havg
      d hd).1 hdR

/-- Root node of the C10 witness neuron (radius `1e-7`). -/
noncomputable def rootPvW : Node := ⟨1, 1, 0, 0, 0, 1e-7, -1⟩

/-- Child node of the C10 witness neuron (radius `1e-7`). -/
noncomputable def childPvW : Node := ⟨2, 1, 5, 0, 0, 1e-7, 1⟩

/-- The C10 witness neuron. -/
noncomputable def neuronPvW : Neuron := ⟨[rootPvW, childPvW], rootPvW⟩

/-- A tube oracle that always reports a nonempty tube. -/
def tubeNEW : Node → Node → Bool := fun _ _ => true

theorem c10_thin_segment_excludes_subtree_witness :
    ((rootPvW.r + childPvW.r) / 2 < 1e-6 ∧
      childPvW ∈ get_children neuronPvW.nodes rootPvW) ∧
    ¬ childPvW ∈ (pvRun tubeNEW neuronPvW).R ∧
    ∀ a : Node, ¬ PvPrim.tube a childPvW ∈
      create_pyvista_primitives tubeNEW neuronPvW := by
  have havg : (rootPvW.r + childPvW.r) / 2 < 1e-6 := by
    norm_num [rootPvW, childPvW]
  have hc : childPvW ∈ get_children neuronPvW.nodes rootPvW := by
    have : childPvW.parent_id = rootPvW.id := by norm_num [rootPvW, childPvW]
    simp [get_children, neuronPvW, List.mem_filter, this]
  have hmem : neuronPvW.root_node ∈ neuronPvW.nodes := by simp [neuronPvW]
  have hnodup : (neuronPvW.nodes.map Node.id).Nodup := by
    simp [neuronPvW, rootPvW, childPvW]
  have hrootp : ¬ neuronPvW.root_node.parent_id ∈ neuronPvW.nodes.map Node.id := by
    simp [neuronPvW, rootPvW, childPvW]
  have hthm := c10_thin_segment_excludes_subtree tubeNEW neuronPvW hmem hnodup
    hrootp rootPvW childPvW (by simp [neuronPvW]) hc havg
  exact ⟨⟨havg, hc⟩, hthm.2.1,
    fun a => hthm.2.2 childPvW Relation.ReflTransGen.refl a⟩

end DigitalNeuron
